import Mathlib

/-!
Verification development for the epub translator (src/epubtrans.py).

Python strings are modelled as lists of characters (`Text`); the byte size
used by the chunker, `len(s.encode('utf-8'))`, is the sum of the UTF-8 sizes
of the characters.  Python `str.strip` is modelled by dropping whitespace on
both ends, `str.split(sep)` by `pySplit`, and the regular-expression
substitution `re.sub('\n +', ' ', s)` by `rnA false s`.  Caches (Python
dicts) are modelled as association lists where an insertion shadows earlier
entries, which preserves lookup and membership semantics.  The translation
client (`_translate_chunk`) is a function parameter; `googleChunk` models
`GoogleTranslator._translate_chunk` over an abstract client call and an
abstract response-reading stage — only the latter runs inside the source's
`try`, so only its failure is caught — and `mockTc`
models `MockTranslator._translate_chunk`.  The orchestrator also returns the
list of chunks passed to the client, modelling the recording that
`MockTranslator` performs on every call it receives.
-/

namespace EpubTrans

/-- A Python string: a sequence of (non-surrogate) code points. -/
abbrev Text := List Char

/-- Whitespace predicate used to model Python's `str.strip`. -/
def wsp (c : Char) : Bool := c.isWhitespace

/-- Models `len(s.encode('utf-8'))`. -/
def pyEncodeLen (s : Text) : Nat := (s.map Char.utf8Size).sum

/-- Models Python `s.strip()`: drop whitespace from both ends. -/
def pyStrip (s : Text) : Text :=
  ((s.dropWhile wsp).reverse.dropWhile wsp).reverse

/-- Models Python `s.split(sep)` for a one-character separator: every
occurrence of `sep` separates two (possibly empty) pieces. -/
def pySplit (sep : Char) : Text → List Text
  | [] => [[]]
  | c :: rest =>
    match pySplit sep rest with
    | [] => [[]]
    | h :: t => if c = sep then [] :: h :: t else (c :: h) :: t

/-- State machine for `re.sub('\n +', ' ', s)`: a newline immediately
followed by a space is emitted as a single space and the following run of
spaces is consumed (`sk = true` while consuming it). -/
def rnA : Bool → Text → Text
  | _, [] => []
  | sk, c :: rest =>
    if sk = true ∧ c = ' ' then rnA true rest
    else if c = '\n' ∧ rest.head? = some ' ' then ' ' :: rnA true rest
    else c :: rnA false rest

/-- Models the compiled pattern `_replace_newlines = re.compile('\n +')`
applied via `.sub(' ', s)`. -/
def replaceNewlines (s : Text) : Text := rnA false s

-- Errors

/-- The two error values produced by the translator, `InvalidText` and
`CannotTranslate`; `ε` is the type of the underlying exception attached to a
failed client call. -/
inductive Err (ε : Type) : Type
  | invalidText (text : Text)
  | cannotTranslate (text : Text) (cause : ε)
deriving DecidableEq

/-- Fragment metadata `(text_id, line_id, original_text)`. -/
abbrev Meta := Nat × Nat × Text

/-- One chunk: its metadata list and its list of fragment strings. -/
abbrev ChunkPair := List Meta × List Text

/-- The chunker's running state: the chunks already appended to `chunks`
before the current one, plus the current (still open) chunk and its
accumulated size (`last_meta`, `last_chunk`, `last_chunk_size`). -/
structure CState where
  closed : List ChunkPair
  curMeta : List Meta
  curChunk : List Text
  curSize : Nat
deriving DecidableEq

/-- The inner loop of `Translator._chunk_texts` over the enumerated
sentence-split sub-lines of one oversized text `orig`. -/
def chunkLines (L : Nat) (tid : Nat) (orig : Text) :
    List (Nat × Text) → CState → CState
  | [], st => st
  | (lid, line) :: rest, st =>
    let l := pyStrip line
    if l = [] then chunkLines L tid orig rest st
    else
      let sz := pyEncodeLen l
      if st.curSize + sz > L then
        chunkLines L tid orig rest
          ⟨st.closed ++ [(st.curMeta, st.curChunk)], [(tid, lid, orig)], [l], sz⟩
      else
        chunkLines L tid orig rest
          ⟨st.closed, st.curMeta ++ [(tid, lid, orig)],
            st.curChunk ++ [l], st.curSize + sz⟩

/-- The main loop of `Translator._chunk_texts` over the enumerated input
texts; returns the chunk list (closed chunks followed by the final current
chunk) and the `InvalidText` errors in encounter order. -/
def chunkTextsAux (ε : Type) (L : Nat) :
    List Text → Nat → CState → List ChunkPair × List (Err ε)
  | [], _, st => (st.closed ++ [(st.curMeta, st.curChunk)], [])
  | t :: rest, tid, st =>
    let sz := pyEncodeLen t
    if sz < L then
      if st.curSize + sz > L then
        chunkTextsAux ε L rest (tid + 1)
          ⟨st.closed ++ [(st.curMeta, st.curChunk)], [(tid, 0, t)],
            [pyStrip t], sz⟩
      else
        chunkTextsAux ε L rest (tid + 1)
          ⟨st.closed, st.curMeta ++ [(tid, 0, t)],
            st.curChunk ++ [pyStrip t], st.curSize + sz⟩
    else
      let lines := pySplit '.' t
      if ∃ l ∈ lines, L < pyEncodeLen l then
        let r := chunkTextsAux ε L rest (tid + 1) st
        (r.1, Err.invalidText t :: r.2)
      else
        chunkTextsAux ε L rest (tid + 1) (chunkLines L tid t lines.enum st)

/-- Models `Translator._chunk_texts`: the always-present initial chunk is the empty
current chunk the loop starts from. -/
def chunkTexts (ε : Type) (L : Nat) (texts : List Text) :
    List ChunkPair × List (Err ε) :=
  chunkTextsAux ε L texts 0 ⟨[], [], [], 0⟩

/-- The condition under which `_chunk_texts` records an `InvalidText` error
for a text: it does not fit below the limit and some sentence-split sub-line
alone exceeds the limit. -/
def tooLong (L : Nat) (t : Text) : Prop :=
  ¬ pyEncodeLen t < L ∧ ∃ l ∈ pySplit '.' t, L < pyEncodeLen l

instance (L : Nat) (t : Text) : Decidable (tooLong L t) := by
  unfold tooLong; infer_instance

/-- Total encoded size of a chunk's fragment list. -/
def chunkLen (c : List Text) : Nat := (c.map pyEncodeLen).sum

-- Reassembler (`Translator._unchunk_trans`)

/-- Python string comparison `a < b`: lexicographic on code points. -/
def pyLtStr : Text → Text → Bool
  | [], [] => false
  | [], _ :: _ => true
  | _ :: _, [] => false
  | a :: as_, b :: bs =>
    if a.toNat < b.toNat then true
    else if b.toNat < a.toNat then false
    else pyLtStr as_ bs

/-- Python comparison of `(line_id, tran)` pairs, as used by the inner
`sorted(trans)` of `_unchunk_trans`. -/
def ltLineTran (x y : Nat × Text) : Bool :=
  if x.1 < y.1 then true
  else if y.1 < x.1 then false
  else pyLtStr x.2 y.2

/-- Python comparison of `((text_id, line_id, orig), tran)` tuples, as used
by the outer `sorted(trans)` of `_unchunk_trans`. -/
def ltTransPair (x y : Meta × Text) : Bool :=
  if x.1.1 < y.1.1 then true
  else if y.1.1 < x.1.1 then false
  else if x.1.2.1 < y.1.2.1 then true
  else if y.1.2.1 < x.1.2.1 then false
  else if pyLtStr x.1.2.2 y.1.2.2 then true
  else if pyLtStr y.1.2.2 x.1.2.2 then false
  else pyLtStr x.2 y.2

/-- Stable insertion for `pySorted`: `x` goes in front of the first element
not strictly below it. -/
def pyInsert (lt : α → α → Bool) (x : α) : List α → List α
  | [] => [x]
  | y :: ys => if lt y x then y :: pyInsert lt x ys else x :: y :: ys

/-- Models Python's stable `sorted` under the strict order `lt`. -/
def pySorted (lt : α → α → Bool) : List α → List α
  | [] => []
  | x :: xs => pyInsert lt x (pySorted lt xs)

/-- The grouping dict of `_unchunk_trans`, keyed by `text_id` in insertion
order; the original text is taken from the first fragment of the group. -/
def groupAdd (acc : List (Nat × Text × List (Nat × Text)))
    (tid : Nat) (orig : Text) (lid : Nat) (tran : Text) :
    List (Nat × Text × List (Nat × Text)) :=
  match acc with
  | [] => [(tid, orig, [(lid, tran)])]
  | (tid', o, ls) :: rest =>
    if tid' = tid then (tid', o, ls ++ [(lid, tran)]) :: rest
    else (tid', o, ls) :: groupAdd rest tid orig lid tran

/-- Models `' '.join(...)`. -/
def joinSpace : List Text → Text
  | [] => []
  | [x] => x
  | x :: y :: rest => x ++ ' ' :: joinSpace (y :: rest)

/-- Models `Translator._unchunk_trans`: sort the `(meta, tran)` pairs, group by
`text_id`, and join each group's sub-line translations with single spaces in
ascending `(line_id, tran)` order. -/
def unchunkTrans (trans : List (Meta × Text)) : List (Text × Text) :=
  let sorted := pySorted ltTransPair trans
  let groups := sorted.foldl
    (fun acc mt => groupAdd acc mt.1.1 mt.1.2.2 mt.1.2.1 mt.2) []
  groups.map (fun g => (g.2.1, joinSpace ((pySorted ltLineTran g.2.2).map (·.2))))

-- Cache (in-memory view of the JSON cache dict)

/-- The cache dict: an association list where the entry closest to the head
wins, so that setting a key shadows older entries (dict semantics for
lookup and membership). -/
abbrev Cache := List (Text × Text)

/-- Models a `cache.get(k)` / `cache[k]` lookup. -/
def cacheGet (c : Cache) (k : Text) : Option Text :=
  match c with
  | [] => none
  | (k', v) :: rest => if k' = k then some v else cacheGet rest k

/-- Models `k in cache`. -/
def cacheHasKey (c : Cache) (k : Text) : Prop := (cacheGet c k).isSome = true

instance (c : Cache) (k : Text) : Decidable (cacheHasKey c k) := by
  unfold cacheHasKey; infer_instance

/-- Models `cache[k] = v`. -/
def cacheSet (c : Cache) (k v : Text) : Cache := (k, v) :: c

/-- Models `cache.update(entries)`. -/
def cacheUpdate (c : Cache) (entries : List (Text × Text)) : Cache :=
  entries.foldl (fun acc kv => cacheSet acc kv.1 kv.2) c

-- Orchestrator (`Translator.translate_texts`)

/-- The first loop of `translate_texts`: blank texts are written to the
cache as empty translations, and the remaining texts not already in the
cache are collected (deduplicated) into the distinct-text collection. -/
def collectDistinct (cache : Cache) (acc : List Text) :
    List Text → Cache × List Text
  | [] => (cache, acc)
  | t :: rest =>
    if pyStrip t = [] then collectDistinct (cacheSet cache t []) acc rest
    else if cacheHasKey cache t then collectDistinct cache acc rest
    else if t ∈ acc then collectDistinct cache acc rest
    else collectDistinct cache (acc ++ [t]) rest

/-- Result of the per-chunk loop: accumulated `(meta, tran)` pairs from
chunks whose client call returned no error, accumulated errors from the
other chunks, and the chunks handed to the client, in order. -/
structure ProcOut (ε : Type) where
  trans : List (Meta × Text)
  errors : List (Err ε)
  sent : List (List Text)
deriving DecidableEq

/-- The per-chunk loop of `translate_texts`: each chunk is passed to the
client; a chunk whose call reports errors contributes only those errors,
any other chunk contributes `zip(meta, chunk_trans)`. -/
def processChunks (tc : List Text → List Text × List (Err ε)) :
    List ChunkPair → ProcOut ε
  | [] => ⟨[], [], []⟩
  | (meta, chunk) :: rest =>
    let r := tc chunk
    let pr := processChunks tc rest
    match r.2 with
    | [] => ⟨meta.zip r.1 ++ pr.trans, pr.errors, chunk :: pr.sent⟩
    | e :: es => ⟨pr.trans, (e :: es) ++ pr.errors, chunk :: pr.sent⟩

/-- Result of `translate_texts`: the returned per-text mapping, the error
list, the chunks handed to the client, and the final cache contents. -/
structure TransOut (ε : Type) where
  mapping : List (Text × Option Text)
  errors : List (Err ε)
  sent : List (List Text)
  finalCache : Cache
deriving DecidableEq

/-- Models `Translator.translate_texts` over an abstract chunk-translation client
`tc` and an explicit initial cache. -/
def translateTexts (ε : Type) (L : Nat)
    (tc : List Text → List Text × List (Err ε))
    (cache0 : Cache) (texts : List Text) : TransOut ε :=
  let cd := collectDistinct cache0 [] texts
  if cd.2 = [] then
    ⟨texts.map (fun t => (t, cacheGet cd.1 t)), [], [], cd.1⟩
  else
    let ce := chunkTexts ε L cd.2
    let pr := processChunks tc ce.1
    let ret := unchunkTrans pr.trans
    let cache2 := if ret = [] then cd.1 else cacheUpdate cd.1 ret
    ⟨texts.map (fun t => (t, cacheGet cache2 t)),
      ce.2 ++ pr.errors, pr.sent, cache2⟩

-- Concrete clients

/-- Models `GoogleTranslator._translate_chunk` with its two failure
stages.  The `call` stage models `client.translate_text(request=...)`,
which the source performs outside the `try`: its failure is not caught,
so it propagates out of `_translate_chunk` as `Except.error`.  Only the
`readResp` stage — `list(t.translated_text for t in
response.translations)` — runs inside the `try`: its failure is caught
and converted into one `CannotTranslate` error per fragment of the chunk,
carrying that fragment's text and the underlying exception, with no
translations produced. -/
def googleChunk (ε ρ : Type) (call : List Text → Except ε ρ)
    (readResp : ρ → Except ε (List Text)) (chunk : List Text) :
    Except ε (List Text × List (Err ε)) :=
  match call chunk with
  | Except.error e => Except.error e
  | Except.ok resp =>
    Except.ok (match readResp resp with
      | Except.ok ts => (ts, [])
      | Except.error e => ([], chunk.map (fun t => Err.cannotTranslate t e)))

/-- Outcome of the per-chunk loop when the chunk call can raise: either an
uncaught exception escaped the loop (recording which chunks had been
handed to the client up to and including the raising call), or the loop
finished with its accumulated results. -/
inductive LoopResult (ε : Type) : Type
  | raised (cause : ε) (sent : List (List Text))
  | done (out : ProcOut ε)
deriving DecidableEq

/-- Models the per-chunk loop of `translate_texts` over a chunk call that
can raise: `translate_texts` wraps the call in no `try`, so an exception
from `_translate_chunk` propagates at once and the remaining chunks are
never sent to the client. -/
def processChunksExc
    (tc : List Text → Except ε (List Text × List (Err ε))) :
    List ChunkPair → LoopResult ε
  | [] => LoopResult.done ⟨[], [], []⟩
  | (meta, chunk) :: rest =>
    match tc chunk with
    | Except.error e => LoopResult.raised e [chunk]
    | Except.ok r =>
      match processChunksExc tc rest with
      | LoopResult.raised e sent => LoopResult.raised e (chunk :: sent)
      | LoopResult.done pr =>
        match r.2 with
        | [] => LoopResult.done
            ⟨meta.zip r.1 ++ pr.trans, pr.errors, chunk :: pr.sent⟩
        | e :: es => LoopResult.done
            ⟨pr.trans, (e :: es) ++ pr.errors, chunk :: pr.sent⟩

/-- Models `MockTranslator._translate_chunk`: prepends `"MOCKED: "` to every
fragment and never fails. -/
def mockTc (ε : Type) (chunk : List Text) : List Text × List (Err ε) :=
  (chunk.map (fun t => String.toList "MOCKED: " ++ t), [])

/-- An identity translation client, for the round-trip property. -/
def idTc (ε : Type) (chunk : List Text) : List Text × List (Err ε) :=
  (chunk, [])

-- Document model (`EPUBTranslator`)

/-- A structural node of a container, as seen through BeautifulSoup: its tag
name, its attributes and its text content.  Equality models bs4 tag
equality (same name, attributes and contents), which is what the rebuild
pass asserts. -/
structure PTag where
  name : Text
  attrs : List (Text × Text)
  text : Text
deriving DecidableEq

/-- Models `TranslationType`. -/
inductive TranslationType : Type
  | INLINE
  | REPLACE
deriving DecidableEq

/-- Models `EPUBTranslator.HTML_TAGS`. -/
def HTML_TAGS : List Text :=
  [String.toList "p", String.toList "h1", String.toList "h2",
    String.toList "h3", String.toList "h4", String.toList "h5",
    String.toList "h6", String.toList "li"]

/-- A node is picked up by a traversal pass when its name is in the tag
allow-list and its normalized text is non-empty. -/
def elig (htmlTags : List Text) (p : PTag) : Prop :=
  p.name ∈ htmlTags ∧ replaceNewlines (pyStrip p.text) ≠ []

instance (htmlTags : List Text) (p : PTag) : Decidable (elig htmlTags p) := by
  unfold elig; infer_instance

/-- The extraction pass over one container
(`EPUBTranslator._read_epub_file`, inner loop): for every allow-listed node
with non-blank normalized text, record `(line, node)`. -/
def readTags (htmlTags : List Text) (content : List PTag) :
    List (Text × PTag) :=
  content.filterMap (fun p =>
    if elig htmlTags p then some (replaceNewlines (pyStrip p.text), p)
    else none)

/-- An extraction-pass record for the rebuild: the node, its extracted text
and the translation looked up for that text (`trans.get(text)`). -/
abbrev Row := PTag × Text × Option Text

/-- The rebuild loop of `EPUBTranslator._build_files` for one container:
walk the freshly parsed node list, pair each eligible node positionally
with the next extraction record (`zip(tags, rows)` stops at the shorter
list), `assert t == tag`, and apply the translation in the requested mode.
`none` models the `AssertionError` escaping the rebuild. -/
def buildWalk (htmlTags : List Text) (ty : TranslationType) :
    List PTag → List Row → Option (List PTag)
  | [], _ => some []
  | n :: rest, [] => some (n :: rest)
  | n :: rest, r :: rs =>
    if elig htmlTags n then
      if n = r.1 then
        match ty with
        | TranslationType.REPLACE =>
          (buildWalk htmlTags ty rest rs).map
            (fun l => { n with text := (r.2.2).getD [] } :: l)
        | TranslationType.INLINE =>
          (buildWalk htmlTags ty rest rs).map
            (fun l => n :: ⟨r.1.name, r.1.attrs, (r.2.2).getD []⟩ :: l)
      else none
    else (buildWalk htmlTags ty rest (r :: rs)).map (fun l => n :: l)

/-- Models `EPUBTranslator._build_files` restricted to a single container, using
the default tag allow-list. -/
def buildFile (ty : TranslationType) (rows : List Row)
    (content : List PTag) : Option (List PTag) :=
  buildWalk HTML_TAGS ty content rows

/-- The rebuild-pass eligible-node sequence of a container (the `tags` list
collected by `_build_files` before zipping with the rows). -/
def eligTags (content : List PTag) : List PTag :=
  content.filter (fun p => decide (elig HTML_TAGS p))

/-- Models `mapping.get(text)` on the result mapping of `translate_texts` (a
missing key and a key mapped to `None` both give `none`). -/
def mapGet (m : List (Text × Option Text)) (k : Text) : Option Text :=
  match m with
  | [] => none
  | (k', v) :: rest => if k' = k then v else mapGet rest k

/-- Outcome of `EPUBTranslator.translate` on one container: aborted with
the full error list before any rebuild (the `RuntimeError`), failed during
the rebuild assertion (the container is not written), or rebuilt content. -/
inductive EpubResult (ε : Type) : Type
  | aborted (errors : List (Err ε))
  | assertFailed
  | ok (content : List PTag)
deriving DecidableEq

/-- Models `EPUBTranslator.translate` restricted to one container: extract, send
every extracted text to `translate_texts`, abort with the full error list
if any error occurred, otherwise rebuild the container from the returned
mapping. -/
def translateEPUB (ε : Type) (L : Nat)
    (tc : List Text → List Text × List (Err ε))
    (ty : TranslationType) (content : List PTag) : EpubResult ε :=
  let contents := readTags HTML_TAGS content
  let out := translateTexts ε L tc [] (contents.map (fun r => r.1))
  match out.errors with
  | [] =>
    match buildFile ty
        (contents.map (fun r => (r.2, r.1, mapGet out.mapping r.1))) content with
    | some doc => EpubResult.ok doc
    | none => EpubResult.assertFailed
  | e :: es => EpubResult.aborted (e :: es)

-- Spec-side definitions

/-- Modelled from the spec's amended wording for the extraction
normalization: split on newlines; a piece that begins with spaces is glued
back with a single space replacing the newline and the leading spaces,
every other piece is glued back with its newline. -/
def specReplace (s : Text) : Text :=
  match pySplit '\n' s with
  | [] => []
  | h :: t =>
    h ++ t.flatMap (fun piece =>
      if piece.head? = some ' ' then ' ' :: piece.dropWhile (· = ' ')
      else '\n' :: piece)

/-- Modelled from the spec's original wording for C9: collapse every run of
whitespace into a single space and trim: join the whitespace-separated
words with single spaces. -/
def specNormalizeC9 (s : Text) : Text :=
  joinSpace ((s.splitOnP wsp).filter (fun w => !w.isEmpty))

-- Views used by the invariant lemmas

/-- All fragment metadata held by a chunker state (closed chunks plus the
open one). -/
def stMetas (st : CState) : List Meta :=
  st.closed.flatMap (fun p => p.1) ++ st.curMeta

/-- All fragment strings held by a chunker state. -/
def stConts (st : CState) : List Text :=
  st.closed.flatMap (fun p => p.2) ++ st.curChunk

/-- All fragment metadata of a finished chunk list. -/
def allMetas (cs : List ChunkPair) : List Meta :=
  cs.flatMap (fun p => p.1)

/-- All fragment strings of a finished chunk list. -/
def allConts (cs : List ChunkPair) : List Text :=
  cs.flatMap (fun p => p.2)

section Lemmas

-- Block A: Python string primitives

theorem chunkLen_append (a b : List Text) :
    chunkLen (a ++ b) = chunkLen a + chunkLen b := by
  simp [chunkLen]

theorem pyEncodeLen_mem_le {e : Text} {c : List Text} (h : e ∈ c) :
    pyEncodeLen e ≤ chunkLen c := by
  refine List.single_le_sum (by simp) _ ?_
  exact List.mem_map_of_mem pyEncodeLen h

theorem pyEncodeLen_dropWhile_le (p : Char → Bool) (l : Text) :
    pyEncodeLen (l.dropWhile p) ≤ pyEncodeLen l := by
  refine List.Sublist.sum_le_sum ?_ (by simp)
  exact List.Sublist.map Char.utf8Size (List.dropWhile_sublist p)

theorem pyEncodeLen_reverse (l : Text) :
    pyEncodeLen l.reverse = pyEncodeLen l := by
  simp [pyEncodeLen, List.map_reverse, List.sum_reverse]

theorem pyEncodeLen_pyStrip_le (s : Text) :
    pyEncodeLen (pyStrip s) ≤ pyEncodeLen s := by
  unfold pyStrip
  calc pyEncodeLen ((s.dropWhile wsp).reverse.dropWhile wsp).reverse
      = pyEncodeLen ((s.dropWhile wsp).reverse.dropWhile wsp) :=
        pyEncodeLen_reverse _
    _ ≤ pyEncodeLen (s.dropWhile wsp).reverse := pyEncodeLen_dropWhile_le _ _
    _ = pyEncodeLen (s.dropWhile wsp) := pyEncodeLen_reverse _
    _ ≤ pyEncodeLen s := pyEncodeLen_dropWhile_le _ _

theorem pySplit_ne_nil (sep : Char) (s : Text) : pySplit sep s ≠ [] := by
  cases s with
  | nil => simp [pySplit]
  | cons c rest =>
    simp only [pySplit]
    rcases h : pySplit sep rest with _ | ⟨h1, t1⟩
    · simp
    · by_cases hc : c = sep <;> simp [hc]

theorem pyEncodeLen_mem_pySplit_le {sep : Char} {l s : Text}
    (h : l ∈ pySplit sep s) : pyEncodeLen l ≤ pyEncodeLen s := by
  induction s generalizing l with
  | nil =>
    simp only [pySplit, List.mem_singleton] at h
    subst h; exact Nat.le_refl _
  | cons c rest ih =>
    have hle : pyEncodeLen rest ≤ pyEncodeLen (c :: rest) := by
      simp [pyEncodeLen]
    rcases hr : pySplit sep rest with _ | ⟨h1, t1⟩
    · exact absurd hr (pySplit_ne_nil sep rest)
    simp only [pySplit, hr] at h
    by_cases hc : c = sep
    · rw [if_pos hc] at h
      rcases List.mem_cons.mp h with rfl | h2
      · exact Nat.zero_le _
      · exact Nat.le_trans (ih (hr.symm ▸ h2)) hle
    · rw [if_neg hc] at h
      rcases List.mem_cons.mp h with rfl | h2
      · have h3 : pyEncodeLen h1 ≤ pyEncodeLen rest :=
          ih (hr.symm ▸ List.mem_cons_self h1 t1)
        simpa [pyEncodeLen] using Nat.add_le_add_left h3 c.utf8Size
      · exact Nat.le_trans (ih (hr.symm ▸ List.mem_cons_of_mem h1 h2)) hle

theorem tooLong_encodeLen_gt {L : Nat} {t : Text} (h : tooLong L t) :
    L < pyEncodeLen t := by
  rcases h with ⟨-, l, hl, hlen⟩
  exact Nat.lt_of_lt_of_le hlen (pyEncodeLen_mem_pySplit_le hl)

theorem pyStrip_eq_nil_all_wsp {t : Text} (h : pyStrip t = []) :
    ∀ c ∈ t, wsp c = true := by
  unfold pyStrip at h
  rw [List.reverse_eq_nil_iff, List.dropWhile_eq_nil_iff] at h
  intro c hc
  by_cases hw : wsp c = true
  · exact hw
  · exfalso
    have hsplit := List.takeWhile_append_dropWhile wsp t
    have hc' : c ∈ t.takeWhile wsp ++ t.dropWhile wsp := by rw [hsplit]; exact hc
    rcases List.mem_append.mp hc' with h1 | h1
    · exact hw (List.mem_takeWhile_imp h1)
    · exact hw (h c (List.mem_reverse.mpr h1))

theorem head_dropWhile_false {p : α → Bool} {l : List α} {c : α} {rest : List α}
    (h : l.dropWhile p = c :: rest) : p c = false := by
  induction l with
  | nil => simp [List.dropWhile] at h
  | cons a as ih =>
    by_cases ha : p a
    · rw [List.dropWhile_cons_of_pos ha] at h; exact ih h
    · rw [List.dropWhile_cons_of_neg ha] at h
      obtain ⟨rfl, -⟩ := List.cons.inj h
      exact Bool.of_not_eq_true ha

theorem pyStrip_exists_not_wsp {u : Text} (h : pyStrip u ≠ []) :
    ∃ c ∈ pyStrip u, wsp c = false := by
  unfold pyStrip at h ⊢
  rcases hd : ((u.dropWhile wsp).reverse.dropWhile wsp) with _ | ⟨c, rest⟩
  · rw [hd] at h; simp at h
  · refine ⟨c, ?_, head_dropWhile_false hd⟩
    exact List.mem_reverse.mpr (List.mem_cons_self _ _)

-- Block B: chunker invariants

theorem mem_snd_of_mem_enum {l : List Text} {p : Nat × Text}
    (h : p ∈ l.enum) : p.2 ∈ l := by
  rw [List.mem_enum_iff_getElem?] at h
  exact List.getElem?_mem h

theorem chunkLines_sizes (L tid : Nat) (orig : Text) :
    ∀ (lines : List (Nat × Text)) (st : CState),
    (∀ p ∈ lines, pyEncodeLen p.2 ≤ L) →
    (∀ p ∈ st.closed, chunkLen p.2 ≤ L) →
    chunkLen st.curChunk ≤ st.curSize → st.curSize ≤ L →
    (∀ p ∈ (chunkLines L tid orig lines st).closed, chunkLen p.2 ≤ L) ∧
      chunkLen (chunkLines L tid orig lines st).curChunk
        ≤ (chunkLines L tid orig lines st).curSize ∧
      (chunkLines L tid orig lines st).curSize ≤ L := by
  intro lines
  induction lines with
  | nil =>
    intro st hl h1 h2 h3
    exact ⟨h1, h2, h3⟩
  | cons p rest ih =>
    intro st hl h1 h2 h3
    obtain ⟨lid, line⟩ := p
    have hline : pyEncodeLen line ≤ L := hl (lid, line) (List.mem_cons_self _ _)
    have hrest : ∀ p ∈ rest, pyEncodeLen p.2 ≤ L :=
      fun p hp => hl p (List.mem_cons_of_mem _ hp)
    by_cases hz : pyStrip line = []
    · simp only [chunkLines]
      rw [if_pos hz]
      exact ih st hrest h1 h2 h3
    · simp only [chunkLines]
      rw [if_neg hz]
      by_cases hover : st.curSize + pyEncodeLen (pyStrip line) > L
      · rw [if_pos hover]
        refine ih _ hrest ?_ ?_ ?_
        · intro p hp
          rcases List.mem_append.mp hp with hp | hp
          · exact h1 p hp
          · rcases List.mem_singleton.mp hp with rfl
            exact Nat.le_trans h2 h3
        · simp [chunkLen]
        · exact Nat.le_trans (pyEncodeLen_pyStrip_le line) hline
      · rw [if_neg hover]
        refine ih _ hrest h1 ?_ ?_
        · rw [chunkLen_append]
          have : chunkLen [pyStrip line] = pyEncodeLen (pyStrip line) := by
            simp [chunkLen]
          rw [this]
          exact Nat.add_le_add_right h2 _
        · exact Nat.le_of_not_lt hover

theorem chunkTextsAux_sizes (ε : Type) (L : Nat) :
    ∀ (ts : List Text) (tid : Nat) (st : CState),
    (∀ p ∈ st.closed, chunkLen p.2 ≤ L) →
    chunkLen st.curChunk ≤ st.curSize → st.curSize ≤ L →
    ∀ p ∈ (chunkTextsAux ε L ts tid st).1, chunkLen p.2 ≤ L := by
  intro ts
  induction ts with
  | nil =>
    intro tid st h1 h2 h3 p hp
    simp only [chunkTextsAux] at hp
    rcases List.mem_append.mp hp with hp | hp
    · exact h1 p hp
    · rcases List.mem_singleton.mp hp with rfl
      exact Nat.le_trans h2 h3
  | cons t rest ih =>
    intro tid st h1 h2 h3 p hp
    simp only [chunkTextsAux] at hp
    by_cases hsz : pyEncodeLen t < L
    · rw [if_pos hsz] at hp
      by_cases hover : st.curSize + pyEncodeLen t > L
      · rw [if_pos hover] at hp
        refine ih _ _ ?_ ?_ ?_ p hp
        · intro q hq
          rcases List.mem_append.mp hq with hq | hq
          · exact h1 q hq
          · rcases List.mem_singleton.mp hq with rfl
            exact Nat.le_trans h2 h3
        · have : chunkLen [pyStrip t] = pyEncodeLen (pyStrip t) := by
            simp [chunkLen]
          rw [this]
          exact pyEncodeLen_pyStrip_le t
        · exact Nat.le_of_lt hsz
      · rw [if_neg hover] at hp
        refine ih _ _ ?_ ?_ ?_ p hp
        · exact h1
        · rw [chunkLen_append]
          have : chunkLen [pyStrip t] = pyEncodeLen (pyStrip t) := by
            simp [chunkLen]
          rw [this]
          exact Nat.add_le_add h2 (pyEncodeLen_pyStrip_le t)
        · exact Nat.le_of_not_lt hover
    · rw [if_neg hsz] at hp
      by_cases hinv : ∃ l ∈ pySplit '.' t, L < pyEncodeLen l
      · rw [if_pos hinv] at hp
        exact ih _ _ h1 h2 h3 p hp
      · rw [if_neg hinv] at hp
        have hlines : ∀ q ∈ (pySplit '.' t).enum, pyEncodeLen q.2 ≤ L := by
          intro q hq
          have hmem : q.2 ∈ pySplit '.' t := mem_snd_of_mem_enum hq
          by_contra hgt
          exact hinv ⟨q.2, hmem, Nat.lt_of_not_le (fun h => hgt h)⟩
        obtain ⟨g1, g2, g3⟩ :=
          chunkLines_sizes L tid t (pySplit '.' t).enum st hlines h1 h2 h3
        exact ih _ _ g1 g2 g3 p hp

theorem chunkTextsAux_errors (ε : Type) (L : Nat) :
    ∀ (ts : List Text) (tid : Nat) (st : CState),
    (chunkTextsAux ε L ts tid st).2
      = (ts.filter (fun t => decide (tooLong L t))).map Err.invalidText := by
  intro ts
  induction ts with
  | nil => intro tid st; simp [chunkTextsAux]
  | cons t rest ih =>
    intro tid st
    simp only [chunkTextsAux]
    by_cases hsz : pyEncodeLen t < L
    · rw [if_pos hsz]
      have hfil : decide (tooLong L t) = false :=
        decide_eq_false (fun hc => hc.1 hsz)
      have hstep : List.filter (fun t => decide (tooLong L t)) (t :: rest)
          = List.filter (fun t => decide (tooLong L t)) rest := by
        simp [List.filter_cons, hfil]
      rw [hstep]
      by_cases hover : st.curSize + pyEncodeLen t > L
      · rw [if_pos hover]; exact ih _ _
      · rw [if_neg hover]; exact ih _ _
    · rw [if_neg hsz]
      by_cases hinv : ∃ l ∈ pySplit '.' t, L < pyEncodeLen l
      · rw [if_pos hinv]
        have hfil : decide (tooLong L t) = true :=
          decide_eq_true ⟨hsz, hinv⟩
        have hstep : List.filter (fun t => decide (tooLong L t)) (t :: rest)
            = t :: List.filter (fun t => decide (tooLong L t)) rest := by
          simp [List.filter_cons, hfil]
        rw [hstep, List.map_cons]
        exact congrArg _ (ih _ _)
      · rw [if_neg hinv]
        have hfil : decide (tooLong L t) = false :=
          decide_eq_false (fun hc => hinv hc.2)
        have hstep : List.filter (fun t => decide (tooLong L t)) (t :: rest)
            = List.filter (fun t => decide (tooLong L t)) rest := by
          simp [List.filter_cons, hfil]
        rw [hstep]
        exact ih _ _

theorem stMetas_closeNew (st : CState) (nm : List Meta) (nc : List Text)
    (ns : Nat) :
    stMetas ⟨st.closed ++ [(st.curMeta, st.curChunk)], nm, nc, ns⟩
      = stMetas st ++ nm := by
  simp [stMetas, List.flatMap_append]

theorem stMetas_appendCur (st : CState) (nm : List Meta) (nc : List Text)
    (ns : Nat) :
    stMetas ⟨st.closed, st.curMeta ++ nm, nc, ns⟩
      = stMetas st ++ nm := by
  simp [stMetas]

theorem stConts_closeNew (st : CState) (nm : List Meta) (nc : List Text)
    (ns : Nat) :
    stConts ⟨st.closed ++ [(st.curMeta, st.curChunk)], nm, nc, ns⟩
      = stConts st ++ nc := by
  simp [stConts, List.flatMap_append]

theorem stConts_appendCur (st : CState) (nm : List Meta) (nc : List Text)
    (ns : Nat) :
    stConts ⟨st.closed, nm, st.curChunk ++ nc, ns⟩
      = stConts st ++ nc := by
  simp [stConts]

theorem allMetas_final (st : CState) :
    allMetas (st.closed ++ [(st.curMeta, st.curChunk)]) = stMetas st := by
  simp [allMetas, stMetas, List.flatMap_append]

theorem allConts_final (st : CState) :
    allConts (st.closed ++ [(st.curMeta, st.curChunk)]) = stConts st := by
  simp [allConts, stConts, List.flatMap_append]

theorem chunkLines_stMetas (L tid : Nat) (orig : Text) :
    ∀ (lines : List (Nat × Text)) (st : CState) (m : Meta),
    m ∈ stMetas (chunkLines L tid orig lines st) →
    m ∈ stMetas st ∨ m.2.2 = orig := by
  intro lines
  induction lines with
  | nil => intro st m hm; exact Or.inl hm
  | cons p rest ih =>
    intro st m hm
    obtain ⟨lid, line⟩ := p
    by_cases hz : pyStrip line = []
    · simp only [chunkLines] at hm
      rw [if_pos hz] at hm
      exact ih st m hm
    · simp only [chunkLines] at hm
      rw [if_neg hz] at hm
      by_cases hover : st.curSize + pyEncodeLen (pyStrip line) > L
      · rw [if_pos hover] at hm
        rcases ih _ m hm with hm' | hm'
        · rw [stMetas_closeNew] at hm'
          rcases List.mem_append.mp hm' with hm'' | hm''
          · exact Or.inl hm''
          · rcases List.mem_singleton.mp hm'' with rfl
            exact Or.inr rfl
        · exact Or.inr hm'
      · rw [if_neg hover] at hm
        rcases ih _ m hm with hm' | hm'
        · rw [stMetas_appendCur] at hm'
          rcases List.mem_append.mp hm' with hm'' | hm''
          · exact Or.inl hm''
          · rcases List.mem_singleton.mp hm'' with rfl
            exact Or.inr rfl
        · exact Or.inr hm'

theorem chunkTextsAux_allMetas (ε : Type) (L : Nat) :
    ∀ (ts : List Text) (tid : Nat) (st : CState) (m : Meta),
    m ∈ allMetas (chunkTextsAux ε L ts tid st).1 →
    m ∈ stMetas st ∨ (m.2.2 ∈ ts ∧ ¬ tooLong L m.2.2) := by
  intro ts
  induction ts with
  | nil =>
    intro tid st m hm
    simp only [chunkTextsAux] at hm
    rw [allMetas_final] at hm
    exact Or.inl hm
  | cons t rest ih =>
    intro tid st m hm
    have wk : m ∈ stMetas st ++ [(tid, 0, t)] → pyEncodeLen t < L →
        m ∈ stMetas st ∨ (m.2.2 ∈ t :: rest ∧ ¬ tooLong L m.2.2) := by
      intro hm' hsz
      rcases List.mem_append.mp hm' with h | h
      · exact Or.inl h
      · rcases List.mem_singleton.mp h with rfl
        exact Or.inr ⟨List.mem_cons_self _ _, fun hc => hc.1 hsz⟩
    simp only [chunkTextsAux] at hm
    by_cases hsz : pyEncodeLen t < L
    · rw [if_pos hsz] at hm
      by_cases hover : st.curSize + pyEncodeLen t > L
      · rw [if_pos hover] at hm
        rcases ih _ _ m hm with hm' | hm'
        · rw [stMetas_closeNew] at hm'
          exact wk hm' hsz
        · exact Or.inr ⟨List.mem_cons_of_mem _ hm'.1, hm'.2⟩
      · rw [if_neg hover] at hm
        rcases ih _ _ m hm with hm' | hm'
        · rw [stMetas_appendCur] at hm'
          exact wk hm' hsz
        · exact Or.inr ⟨List.mem_cons_of_mem _ hm'.1, hm'.2⟩
    · rw [if_neg hsz] at hm
      by_cases hinv : ∃ l ∈ pySplit '.' t, L < pyEncodeLen l
      · rw [if_pos hinv] at hm
        rcases ih _ _ m hm with hm' | hm'
        · exact Or.inl hm'
        · exact Or.inr ⟨List.mem_cons_of_mem _ hm'.1, hm'.2⟩
      · rw [if_neg hinv] at hm
        rcases ih _ _ m hm with hm' | hm'
        · rcases chunkLines_stMetas L tid t _ st m hm' with hm'' | hm''
          · exact Or.inl hm''
          · exact Or.inr ⟨by rw [hm'']; exact List.mem_cons_self _ _,
              by rw [hm'']; exact fun hc => hinv hc.2⟩
        · exact Or.inr ⟨List.mem_cons_of_mem _ hm'.1, hm'.2⟩

theorem chunkLines_stConts (L tid : Nat) (orig : Text) :
    ∀ (lines : List (Nat × Text)) (st : CState) (e : Text),
    e ∈ stConts (chunkLines L tid orig lines st) →
    e ∈ stConts st ∨ (∃ u, e = pyStrip u ∧ e ≠ []) := by
  intro lines
  induction lines with
  | nil => intro st e he; exact Or.inl he
  | cons p rest ih =>
    intro st e he
    obtain ⟨lid, line⟩ := p
    by_cases hz : pyStrip line = []
    · simp only [chunkLines] at he
      rw [if_pos hz] at he
      exact ih st e he
    · simp only [chunkLines] at he
      rw [if_neg hz] at he
      by_cases hover : st.curSize + pyEncodeLen (pyStrip line) > L
      · rw [if_pos hover] at he
        rcases ih _ e he with he' | he'
        · rw [stConts_closeNew] at he'
          rcases List.mem_append.mp he' with he'' | he''
          · exact Or.inl he''
          · rcases List.mem_singleton.mp he'' with rfl
            exact Or.inr ⟨line, rfl, hz⟩
        · exact Or.inr he'
      · rw [if_neg hover] at he
        rcases ih _ e he with he' | he'
        · rw [stConts_appendCur] at he'
          rcases List.mem_append.mp he' with he'' | he''
          · exact Or.inl he''
          · rcases List.mem_singleton.mp he'' with rfl
            exact Or.inr ⟨line, rfl, hz⟩
        · exact Or.inr he'

theorem chunkTextsAux_allConts (ε : Type) (L : Nat) :
    ∀ (ts : List Text) (tid : Nat) (st : CState) (e : Text),
    (∀ u ∈ ts, pyStrip u ≠ []) →
    e ∈ allConts (chunkTextsAux ε L ts tid st).1 →
    e ∈ stConts st ∨ (∃ u, e = pyStrip u ∧ e ≠ []) := by
  intro ts
  induction ts with
  | nil =>
    intro tid st e _ he
    simp only [chunkTextsAux] at he
    rw [allConts_final] at he
    exact Or.inl he
  | cons t rest ih =>
    intro tid st e hnb he
    have hnbt : pyStrip t ≠ [] := hnb t (List.mem_cons_self _ _)
    have hnbr : ∀ u ∈ rest, pyStrip u ≠ [] :=
      fun u hu => hnb u (List.mem_cons_of_mem _ hu)
    have wk : e ∈ stConts st ++ [pyStrip t] →
        e ∈ stConts st ∨ (∃ u, e = pyStrip u ∧ e ≠ []) := by
      intro he'
      rcases List.mem_append.mp he' with h | h
      · exact Or.inl h
      · rcases List.mem_singleton.mp h with rfl
        exact Or.inr ⟨t, rfl, hnbt⟩
    simp only [chunkTextsAux] at he
    by_cases hsz : pyEncodeLen t < L
    · rw [if_pos hsz] at he
      by_cases hover : st.curSize + pyEncodeLen t > L
      · rw [if_pos hover] at he
        rcases ih _ _ e hnbr he with he' | he'
        · rw [stConts_closeNew] at he'
          exact wk he'
        · exact Or.inr he'
      · rw [if_neg hover] at he
        rcases ih _ _ e hnbr he with he' | he'
        · rw [stConts_appendCur] at he'
          exact wk he'
        · exact Or.inr he'
    · rw [if_neg hsz] at he
      by_cases hinv : ∃ l ∈ pySplit '.' t, L < pyEncodeLen l
      · rw [if_pos hinv] at he
        exact ih _ _ e hnbr he
      · rw [if_neg hinv] at he
        rcases ih _ _ e hnbr he with he' | he'
        · exact chunkLines_stConts L tid t _ st e he'
        · exact Or.inr he'

theorem chunkLines_stMetas_mono (L tid : Nat) (orig : Text) :
    ∀ (lines : List (Nat × Text)) (st : CState) (m : Meta),
    m ∈ stMetas st → m ∈ stMetas (chunkLines L tid orig lines st) := by
  intro lines
  induction lines with
  | nil => intro st m hm; exact hm
  | cons p rest ih =>
    intro st m hm
    obtain ⟨lid, line⟩ := p
    by_cases hz : pyStrip line = []
    · simp only [chunkLines]
      rw [if_pos hz]
      exact ih st m hm
    · simp only [chunkLines]
      rw [if_neg hz]
      by_cases hover : st.curSize + pyEncodeLen (pyStrip line) > L
      · rw [if_pos hover]
        refine ih _ m ?_
        rw [stMetas_closeNew]
        exact List.mem_append.mpr (Or.inl hm)
      · rw [if_neg hover]
        refine ih _ m ?_
        rw [stMetas_appendCur]
        exact List.mem_append.mpr (Or.inl hm)

theorem chunkTextsAux_stMetas_mono (ε : Type) (L : Nat) :
    ∀ (ts : List Text) (tid : Nat) (st : CState) (m : Meta),
    m ∈ stMetas st → m ∈ allMetas (chunkTextsAux ε L ts tid st).1 := by
  intro ts
  induction ts with
  | nil =>
    intro tid st m hm
    simp only [chunkTextsAux]
    rw [allMetas_final]
    exact hm
  | cons t rest ih =>
    intro tid st m hm
    simp only [chunkTextsAux]
    by_cases hsz : pyEncodeLen t < L
    · rw [if_pos hsz]
      by_cases hover : st.curSize + pyEncodeLen t > L
      · rw [if_pos hover]
        refine ih _ _ m ?_
        rw [stMetas_closeNew]
        exact List.mem_append.mpr (Or.inl hm)
      · rw [if_neg hover]
        refine ih _ _ m ?_
        rw [stMetas_appendCur]
        exact List.mem_append.mpr (Or.inl hm)
    · rw [if_neg hsz]
      by_cases hinv : ∃ l ∈ pySplit '.' t, L < pyEncodeLen l
      · rw [if_pos hinv]
        exact ih _ _ m hm
      · rw [if_neg hinv]
        exact ih _ _ m (chunkLines_stMetas_mono L tid t _ st m hm)

theorem chunkTextsAux_present (ε : Type) (L : Nat) :
    ∀ (ts : List Text) (tid : Nat) (st : CState) (t : Text),
    t ∈ ts → pyEncodeLen t < L →
    ∃ tid', (tid', 0, t) ∈ allMetas (chunkTextsAux ε L ts tid st).1 := by
  intro ts
  induction ts with
  | nil => intro tid st t ht _; exact absurd ht (List.not_mem_nil t)
  | cons u rest ih =>
    intro tid st t ht hsz
    rcases List.mem_cons.mp ht with rfl | ht'
    · refine ⟨tid, ?_⟩
      simp only [chunkTextsAux]
      rw [if_pos hsz]
      by_cases hover : st.curSize + pyEncodeLen t > L
      · rw [if_pos hover]
        refine chunkTextsAux_stMetas_mono ε L rest _ _ _ ?_
        rw [stMetas_closeNew]
        exact List.mem_append.mpr (Or.inr (List.mem_singleton.mpr rfl))
      · rw [if_neg hover]
        refine chunkTextsAux_stMetas_mono ε L rest _ _ _ ?_
        rw [stMetas_appendCur]
        exact List.mem_append.mpr (Or.inr (List.mem_singleton.mpr rfl))
    · simp only [chunkTextsAux]
      by_cases husz : pyEncodeLen u < L
      · rw [if_pos husz]
        by_cases hover : st.curSize + pyEncodeLen u > L
        · rw [if_pos hover]; exact ih _ _ t ht' hsz
        · rw [if_neg hover]; exact ih _ _ t ht' hsz
      · rw [if_neg husz]
        by_cases hinv : ∃ l ∈ pySplit '.' u, L < pyEncodeLen l
        · rw [if_pos hinv]; exact ih _ _ t ht' hsz
        · rw [if_neg hinv]; exact ih _ _ t ht' hsz

-- Block C: the per-chunk loop

theorem processChunks_sent (ε : Type)
    (tc : List Text → List Text × List (Err ε)) :
    ∀ chunks, (processChunks tc chunks).sent
      = chunks.map (fun p => p.2) := by
  intro chunks
  induction chunks with
  | nil => rfl
  | cons p rest ih =>
    obtain ⟨meta, chunk⟩ := p
    cases he : (tc chunk).2 with
    | nil => simp [processChunks, he, ih]
    | cons e es => simp [processChunks, he, ih]

theorem processChunks_trans_mem (ε : Type)
    (tc : List Text → List Text × List (Err ε)) :
    ∀ chunks (m : Meta) (tr : Text),
    (m, tr) ∈ (processChunks tc chunks).trans →
    ∃ p ∈ chunks, m ∈ p.1 := by
  intro chunks
  induction chunks with
  | nil => intro m tr hm; exact absurd hm (List.not_mem_nil _)
  | cons p rest ih =>
    intro m tr hm
    obtain ⟨meta, chunk⟩ := p
    cases he : (tc chunk).2 with
    | nil =>
      simp only [processChunks, he] at hm
      rcases List.mem_append.mp hm with hm' | hm'
      · exact ⟨(meta, chunk), List.mem_cons_self _ _,
          (List.of_mem_zip hm').1⟩
      · obtain ⟨q, hq, hq2⟩ := ih m tr hm'
        exact ⟨q, List.mem_cons_of_mem _ hq, hq2⟩
    | cons e es =>
      simp only [processChunks, he] at hm
      obtain ⟨q, hq, hq2⟩ := ih m tr hm
      exact ⟨q, List.mem_cons_of_mem _ hq, hq2⟩

theorem processChunksExc_allOk (ε ρ : Type) (call : List Text → Except ε ρ)
    (readResp : ρ → Except ε (List Text)) :
    ∀ chunks : List ChunkPair,
    (∀ p ∈ chunks, ∃ r, call p.2 = Except.ok r) →
    processChunksExc (googleChunk ε ρ call readResp) chunks
      = LoopResult.done
          ⟨chunks.flatMap (fun p => match call p.2 with
              | Except.ok resp => (match readResp resp with
                  | Except.ok ts => p.1.zip ts
                  | Except.error _ => [])
              | Except.error _ => []),
            chunks.flatMap (fun p => match call p.2 with
              | Except.ok resp => (match readResp resp with
                  | Except.ok _ => []
                  | Except.error e =>
                      p.2.map (fun t => Err.cannotTranslate t e))
              | Except.error _ => []),
            chunks.map (fun p => p.2)⟩ := by
  intro chunks
  induction chunks with
  | nil => intro _; rfl
  | cons p rest ih =>
    intro hall
    obtain ⟨meta, chunk⟩ := p
    obtain ⟨r, hr⟩ := hall (meta, chunk) (List.mem_cons_self _ _)
    have hrec := ih (fun q hq => hall q (List.mem_cons_of_mem _ hq))
    cases hread : readResp r with
    | ok ts =>
      have hg : googleChunk ε ρ call readResp chunk = Except.ok (ts, []) := by
        simp [googleChunk, hr, hread]
      simp [processChunksExc, hg, hrec, hr, hread]
    | error e =>
      have hg : googleChunk ε ρ call readResp chunk
          = Except.ok ([], chunk.map (fun t => Err.cannotTranslate t e)) := by
        simp [googleChunk, hr, hread]
      cases chunk with
      | nil => simp [processChunksExc, hg, hrec, hr, hread]
      | cons c cs => simp [processChunksExc, hg, hrec, hr, hread]

theorem processChunksExc_raise (ε ρ : Type) (call : List Text → Except ε ρ)
    (readResp : ρ → Except ε (List Text)) :
    ∀ (pre : List ChunkPair) (p : ChunkPair) (post : List ChunkPair)
      (e : ε),
    (∀ q ∈ pre, ∃ r, call q.2 = Except.ok r) →
    call p.2 = Except.error e →
    processChunksExc (googleChunk ε ρ call readResp) (pre ++ p :: post)
      = LoopResult.raised e (pre.map (fun q => q.2) ++ [p.2]) := by
  intro pre
  induction pre with
  | nil =>
    intro p post e _ hfail
    obtain ⟨meta, chunk⟩ := p
    have hg : googleChunk ε ρ call readResp chunk = Except.error e := by
      simp [googleChunk, hfail]
    simp [processChunksExc, hg]
  | cons q pre' ih =>
    intro p post e hpre hfail
    obtain ⟨meta, chunk⟩ := q
    obtain ⟨r, hr⟩ := hpre (meta, chunk) (List.mem_cons_self _ _)
    have hrec := ih p post e
      (fun q' hq' => hpre q' (List.mem_cons_of_mem _ hq')) hfail
    cases hread : readResp r with
    | ok ts =>
      have hg : googleChunk ε ρ call readResp chunk = Except.ok (ts, []) := by
        simp [googleChunk, hr, hread]
      simp [processChunksExc, hg, hrec]
    | error e' =>
      have hg : googleChunk ε ρ call readResp chunk
          = Except.ok ([], chunk.map (fun t => Err.cannotTranslate t e')) := by
        simp [googleChunk, hr, hread]
      simp [processChunksExc, hg, hrec]

-- Block D: reassembler keys

theorem mem_pyInsert (lt : α → α → Bool) (x y : α) :
    ∀ l, y ∈ pyInsert lt x l ↔ y = x ∨ y ∈ l := by
  intro l
  induction l with
  | nil => simp [pyInsert]
  | cons z zs ih =>
    by_cases h : lt z x
    · simp only [pyInsert, if_pos h, List.mem_cons, ih]
      tauto
    · simp only [pyInsert, if_neg h, List.mem_cons]

theorem mem_pySorted (lt : α → α → Bool) :
    ∀ l (y : α), y ∈ pySorted lt l ↔ y ∈ l := by
  intro l
  induction l with
  | nil => simp [pySorted]
  | cons x xs ih =>
    intro y
    simp only [pySorted, mem_pyInsert, List.mem_cons, ih]

theorem groupAdd_origs :
    ∀ (acc : List (Nat × Text × List (Nat × Text))) (tid : Nat) (orig : Text)
      (lid : Nat) (tran : Text) (g : Nat × Text × List (Nat × Text)),
    g ∈ groupAdd acc tid orig lid tran →
    g.2.1 = orig ∨ ∃ g' ∈ acc, g.2.1 = g'.2.1 := by
  intro acc
  induction acc with
  | nil =>
    intro tid orig lid tran g hg
    simp only [groupAdd, List.mem_singleton] at hg
    subst hg
    exact Or.inl rfl
  | cons h rest ih =>
    intro tid orig lid tran g hg
    obtain ⟨tid', o, ls⟩ := h
    by_cases ht : tid' = tid
    · simp only [groupAdd, if_pos ht, List.mem_cons] at hg
      rcases hg with rfl | hg
      · exact Or.inr ⟨(tid', o, ls), List.mem_cons_self _ _, rfl⟩
      · exact Or.inr ⟨g, List.mem_cons_of_mem _ hg, rfl⟩
    · simp only [groupAdd, if_neg ht, List.mem_cons] at hg
      rcases hg with rfl | hg
      · exact Or.inr ⟨(tid', o, ls), List.mem_cons_self _ _, rfl⟩
      · rcases ih tid orig lid tran g hg with h1 | ⟨g', hg', h2⟩
        · exact Or.inl h1
        · exact Or.inr ⟨g', List.mem_cons_of_mem _ hg', h2⟩

theorem foldl_groupAdd_origs :
    ∀ (l : List (Meta × Text)) (acc : List (Nat × Text × List (Nat × Text)))
      (g : Nat × Text × List (Nat × Text)),
    g ∈ l.foldl (fun acc mt => groupAdd acc mt.1.1 mt.1.2.2 mt.1.2.1 mt.2) acc →
    (∃ mt ∈ l, g.2.1 = mt.1.2.2) ∨ ∃ g' ∈ acc, g.2.1 = g'.2.1 := by
  intro l
  induction l with
  | nil => intro acc g hg; exact Or.inr ⟨g, hg, rfl⟩
  | cons mt rest ih =>
    intro acc g hg
    simp only [List.foldl_cons] at hg
    rcases ih _ g hg with ⟨mt', hmt', h1⟩ | ⟨g', hg', h2⟩
    · exact Or.inl ⟨mt', List.mem_cons_of_mem _ hmt', h1⟩
    · rcases groupAdd_origs _ _ _ _ _ g' hg' with h3 | ⟨g'', hg'', h4⟩
      · exact Or.inl ⟨mt, List.mem_cons_self _ _, h2.trans h3⟩
      · exact Or.inr ⟨g'', hg'', h2.trans h4⟩

theorem unchunkTrans_keys {tr : List (Meta × Text)} {k v : Text}
    (h : (k, v) ∈ unchunkTrans tr) : ∃ mt ∈ tr, k = mt.1.2.2 := by
  unfold unchunkTrans at h
  rcases List.mem_map.mp h with ⟨g, hg, heq⟩
  have hk : k = g.2.1 := by
    have := congrArg Prod.fst heq
    exact this.symm
  rcases foldl_groupAdd_origs _ _ g hg with ⟨mt, hmt, h1⟩ | ⟨g', hg', -⟩
  · exact ⟨mt, (mem_pySorted ltTransPair tr mt).mp hmt, hk.trans h1⟩
  · exact absurd hg' (List.not_mem_nil g')

-- Block E: blank and distinct text collection

theorem collectDistinct_mem_distinct :
    ∀ (ts : List Text) (cache : Cache) (acc : List Text) (u : Text),
    u ∈ (collectDistinct cache acc ts).2 →
    u ∈ acc ∨ (u ∈ ts ∧ pyStrip u ≠ []) := by
  intro ts
  induction ts with
  | nil => intro cache acc u hu; exact Or.inl hu
  | cons t rest ih =>
    intro cache acc u hu
    by_cases hz : pyStrip t = []
    · simp only [collectDistinct, if_pos hz] at hu
      rcases ih _ _ u hu with h | ⟨h1, h2⟩
      · exact Or.inl h
      · exact Or.inr ⟨List.mem_cons_of_mem _ h1, h2⟩
    · simp only [collectDistinct, if_neg hz] at hu
      by_cases hc : cacheHasKey cache t
      · rw [if_pos hc] at hu
        rcases ih _ _ u hu with h | ⟨h1, h2⟩
        · exact Or.inl h
        · exact Or.inr ⟨List.mem_cons_of_mem _ h1, h2⟩
      · rw [if_neg hc] at hu
        by_cases ha : t ∈ acc
        · rw [if_pos ha] at hu
          rcases ih _ _ u hu with h | ⟨h1, h2⟩
          · exact Or.inl h
          · exact Or.inr ⟨List.mem_cons_of_mem _ h1, h2⟩
        · rw [if_neg ha] at hu
          rcases ih _ _ u hu with h | ⟨h1, h2⟩
          · rcases List.mem_append.mp h with h' | h'
            · exact Or.inl h'
            · rcases List.mem_singleton.mp h' with rfl
              exact Or.inr ⟨List.mem_cons_self _ _, hz⟩
          · exact Or.inr ⟨List.mem_cons_of_mem _ h1, h2⟩

theorem collectDistinct_acc_mono :
    ∀ (ts : List Text) (cache : Cache) (acc : List Text) (u : Text),
    u ∈ acc → u ∈ (collectDistinct cache acc ts).2 := by
  intro ts
  induction ts with
  | nil => intro cache acc u hu; exact hu
  | cons t rest ih =>
    intro cache acc u hu
    by_cases hz : pyStrip t = []
    · simp only [collectDistinct, if_pos hz]
      exact ih _ _ u hu
    · simp only [collectDistinct, if_neg hz]
      by_cases hc : cacheHasKey cache t
      · rw [if_pos hc]; exact ih _ _ u hu
      · rw [if_neg hc]
        by_cases ha : t ∈ acc
        · rw [if_pos ha]; exact ih _ _ u hu
        · rw [if_neg ha]
          exact ih _ _ u (List.mem_append.mpr (Or.inl hu))

theorem cacheGet_set (c : Cache) (k v k' : Text) :
    cacheGet (cacheSet c k v) k' = if k = k' then some v else cacheGet c k' := by
  simp [cacheGet, cacheSet]

/-- Keys of a cache whose every key is blank stay blank under the blank
insertions of `collectDistinct`; a non-blank text therefore reaches the
distinct list. -/
theorem collectDistinct_present :
    ∀ (ts : List Text) (cache : Cache) (acc : List Text) (t : Text),
    t ∈ ts → pyStrip t ≠ [] →
    (∀ k, cacheHasKey cache k → pyStrip k = []) →
    t ∈ (collectDistinct cache acc ts).2 := by
  intro ts
  induction ts with
  | nil => intro cache acc t ht _ _; exact absurd ht (List.not_mem_nil t)
  | cons u rest ih =>
    intro cache acc t ht hnb hkeys
    have hkeys' : ∀ (x : Text) (k : Text), cacheHasKey (cacheSet cache x []) k →
        pyStrip k = [] → True := fun _ _ _ _ => trivial
    rcases List.mem_cons.mp ht with rfl | ht'
    · simp only [collectDistinct, if_neg hnb]
      have hc : ¬ cacheHasKey cache t := by
        intro hc
        exact hnb (hkeys t hc)
      rw [if_neg hc]
      by_cases ha : t ∈ acc
      · rw [if_pos ha]
        exact collectDistinct_acc_mono _ _ _ t ha
      · rw [if_neg ha]
        exact collectDistinct_acc_mono _ _ _ t
          (List.mem_append.mpr (Or.inr (List.mem_singleton.mpr rfl)))
    · by_cases hz : pyStrip u = []
      · simp only [collectDistinct, if_pos hz]
        refine ih _ _ t ht' hnb ?_
        intro k hk
        rw [cacheHasKey, cacheGet_set] at hk
        by_cases hku : u = k
        · rw [← hku]; exact hz
        · rw [if_neg hku] at hk
          exact hkeys k hk
      · simp only [collectDistinct, if_neg hz]
        by_cases hc : cacheHasKey cache u
        · rw [if_pos hc]; exact ih _ _ t ht' hnb hkeys
        · rw [if_neg hc]
          by_cases ha : u ∈ acc
          · rw [if_pos ha]; exact ih _ _ t ht' hnb hkeys
          · rw [if_neg ha]; exact ih _ _ t ht' hnb hkeys

theorem collectDistinct_blank_get :
    ∀ (ts : List Text) (cache : Cache) (acc : List Text) (t : Text),
    (t ∈ ts ∧ pyStrip t = []) ∨ cacheGet cache t = some [] →
    cacheGet (collectDistinct cache acc ts).1 t = some [] := by
  intro ts
  induction ts with
  | nil =>
    intro cache acc t h
    rcases h with ⟨h1, -⟩ | h2
    · exact absurd h1 (List.not_mem_nil t)
    · exact h2
  | cons u rest ih =>
    intro cache acc t h
    by_cases hz : pyStrip u = []
    · simp only [collectDistinct, if_pos hz]
      rcases h with ⟨h1, h2⟩ | h2
      · rcases List.mem_cons.mp h1 with rfl | h1'
        · refine ih _ _ t (Or.inr ?_)
          rw [cacheGet_set, if_pos rfl]
        · exact ih _ _ t (Or.inl ⟨h1', h2⟩)
      · refine ih _ _ t (Or.inr ?_)
        rw [cacheGet_set]
        by_cases hut : u = t
        · rw [if_pos hut]
        · rw [if_neg hut]; exact h2
    · simp only [collectDistinct, if_neg hz]
      have hnext : (t ∈ rest ∧ pyStrip t = []) ∨ cacheGet cache t = some [] := by
        rcases h with ⟨h1, h2⟩ | h2
        · rcases List.mem_cons.mp h1 with rfl | h1'
          · exact absurd h2 hz
          · exact Or.inl ⟨h1', h2⟩
        · exact Or.inr h2
      by_cases hc : cacheHasKey cache u
      · rw [if_pos hc]; exact ih _ _ t hnext
      · rw [if_neg hc]
        by_cases ha : u ∈ acc
        · rw [if_pos ha]; exact ih _ _ t hnext
        · rw [if_neg ha]; exact ih _ _ t hnext

-- Block F: cache update

theorem cacheGet_update_not_mem :
    ∀ (entries : List (Text × Text)) (c : Cache) (t : Text),
    (∀ kv ∈ entries, kv.1 ≠ t) →
    cacheGet (cacheUpdate c entries) t = cacheGet c t := by
  intro entries
  induction entries with
  | nil => intro c t _; rfl
  | cons kv rest ih =>
    intro c t hne
    simp only [cacheUpdate, List.foldl_cons]
    have step : cacheGet (cacheSet c kv.1 kv.2) t = cacheGet c t := by
      rw [cacheGet_set, if_neg (hne kv (List.mem_cons_self _ _))]
    have := ih (cacheSet c kv.1 kv.2) t
      (fun kv' h => hne kv' (List.mem_cons_of_mem _ h))
    unfold cacheUpdate at this
    rw [this, step]

-- Block G: the newline-space substitution agrees with its split-based form

theorem pySplit_cons_sep (sep : Char) (s : Text) :
    pySplit sep (sep :: s) = [] :: pySplit sep s := by
  rcases h : pySplit sep s with _ | ⟨h1, t1⟩
  · exact absurd h (pySplit_ne_nil sep s)
  · simp [pySplit, h]

theorem pySplit_cons_ne {sep c : Char} (s : Text) {h1 : Text} {t1 : List Text}
    (hc : c ≠ sep) (h : pySplit sep s = h1 :: t1) :
    pySplit sep (c :: s) = (c :: h1) :: t1 := by
  simp [pySplit, h, hc]

theorem specReplace_eq {s h : Text} {t : List Text}
    (hp : pySplit '\n' s = h :: t) :
    specReplace s = h ++ t.flatMap (fun piece =>
      if piece.head? = some ' ' then ' ' :: piece.dropWhile (· = ' ')
      else '\n' :: piece) := by
  unfold specReplace
  rw [hp]

theorem pySplit_head_space {s h : Text} {t : List Text}
    (hp : pySplit '\n' s = h :: t) :
    (h.head? = some ' ') ↔ (s.head? = some ' ') := by
  cases s with
  | nil =>
    simp only [pySplit] at hp
    obtain ⟨rfl, -⟩ := List.cons.inj hp.symm
    simp
  | cons c s' =>
    by_cases hc : c = '\n'
    · subst hc
      rw [pySplit_cons_sep] at hp
      obtain ⟨rfl, -⟩ := List.cons.inj hp.symm
      constructor
      · intro h'; simp at h'
      · intro h'
        simp only [List.head?_cons, Option.some.injEq] at h'
        exact absurd h' (by decide)
    · rcases hq : pySplit '\n' s' with _ | ⟨h1, t1⟩
      · exact absurd hq (pySplit_ne_nil '\n' s')
      · rw [pySplit_cons_ne s' hc hq] at hp
        obtain ⟨rfl, -⟩ := List.cons.inj hp.symm
        simp

theorem pySplit_dropWhile_space {s h : Text} {t : List Text}
    (hp : pySplit '\n' s = h :: t) :
    pySplit '\n' (s.dropWhile (fun c => c = ' '))
      = (h.dropWhile (fun c => c = ' ')) :: t := by
  induction s generalizing h t with
  | nil =>
    simp only [pySplit] at hp
    obtain ⟨rfl, rfl⟩ := List.cons.inj hp.symm
    simp [pySplit]
  | cons c s' ih =>
    by_cases hsp : c = ' '
    · subst hsp
      have hcn : (' ' : Char) ≠ '\n' := by decide
      rcases hq : pySplit '\n' s' with _ | ⟨h1, t1⟩
      · exact absurd hq (pySplit_ne_nil '\n' s')
      · rw [pySplit_cons_ne s' hcn hq] at hp
        obtain ⟨rfl, rfl⟩ := List.cons.inj hp.symm
        have hdrop : (' ' :: s').dropWhile (fun c => c = ' ')
            = s'.dropWhile (fun c => c = ' ') := by
          simp [List.dropWhile_cons]
        rw [hdrop, ih hq]
        simp [List.dropWhile_cons]
    · have hdrop : (c :: s').dropWhile (fun c => c = ' ') = c :: s' := by
        simp [List.dropWhile_cons, hsp]
      rw [hdrop, hp]
      by_cases hc : c = '\n'
      · subst hc
        rw [pySplit_cons_sep] at hp
        obtain ⟨rfl, -⟩ := List.cons.inj hp.symm
        simp
      · rcases hq : pySplit '\n' s' with _ | ⟨h1, t1⟩
        · exact absurd hq (pySplit_ne_nil '\n' s')
        · rw [pySplit_cons_ne s' hc hq] at hp
          obtain ⟨rfl, -⟩ := List.cons.inj hp.symm
          simp [List.dropWhile_cons, hsp]

theorem rnA_true_dropWhile (s : Text) :
    rnA true s = rnA false (s.dropWhile (fun c => c = ' ')) := by
  induction s with
  | nil => rfl
  | cons c rest ih =>
    by_cases hsp : c = ' '
    · subst hsp
      have h1 : rnA true (' ' :: rest) = rnA true rest := by
        simp [rnA]
      rw [h1, ih]
      simp [List.dropWhile_cons]
    · have hdrop : (c :: rest).dropWhile (fun c => c = ' ') = c :: rest := by
        simp [List.dropWhile_cons, hsp]
      rw [hdrop]
      by_cases hnl : c = '\n' ∧ rest.head? = some ' '
      · simp [rnA, hsp, hnl]
      · simp [rnA, hsp, hnl]

theorem rnA_false_eq_specReplace :
    ∀ (n : Nat) (s : Text), s.length ≤ n → rnA false s = specReplace s := by
  intro n
  induction n with
  | zero =>
    intro s hs
    rw [Nat.le_zero, List.length_eq_zero] at hs
    subst hs
    rfl
  | succ n ih =>
    intro s hs
    cases s with
    | nil => rfl
    | cons c rest =>
      have hlen : rest.length ≤ n := Nat.le_of_succ_le_succ hs
      rcases hq : pySplit '\n' rest with _ | ⟨h1, t1⟩
      · exact absurd hq (pySplit_ne_nil '\n' rest)
      by_cases hc : c = '\n'
      · subst hc
        have hp : pySplit '\n' ('\n' :: rest) = [] :: h1 :: t1 := by
          rw [pySplit_cons_sep, hq]
        by_cases hsp : rest.head? = some ' '
        · have lhs1 : rnA false ('\n' :: rest) = ' ' :: rnA true rest := by
            simp [rnA, hsp]
          rw [lhs1, rnA_true_dropWhile]
          have hdlen : (rest.dropWhile (fun c => c = ' ')).length ≤ n :=
            Nat.le_trans (List.Sublist.length_le (List.dropWhile_sublist _))
              hlen
          rw [ih _ hdlen]
          rw [specReplace_eq (pySplit_dropWhile_space hq),
            specReplace_eq hp]
          have hh1 : h1.head? = some ' ' := (pySplit_head_space hq).mpr hsp
          simp [hh1]
        · have lhs1 : rnA false ('\n' :: rest) = '\n' :: rnA false rest := by
            simp [rnA, hsp]
          rw [lhs1, ih rest hlen]
          rw [specReplace_eq hq, specReplace_eq hp]
          have hh1 : ¬ h1.head? = some ' ' :=
            fun hx => hsp ((pySplit_head_space hq).mp hx)
          simp [hh1]
      · have lhs1 : rnA false (c :: rest) = c :: rnA false rest := by
          have hcond : ¬ (c = '\n' ∧ rest.head? = some ' ') :=
            fun hx => hc hx.1
          simp [rnA, hcond]
        rw [lhs1, ih rest hlen]
        rw [specReplace_eq hq, specReplace_eq (pySplit_cons_ne rest hc hq)]
        simp

/-- The source's regular-expression substitution agrees with the spec-side
split-on-newline formulation. -/
theorem replaceNewlines_eq_specReplace (s : Text) :
    replaceNewlines s = specReplace s :=
  rnA_false_eq_specReplace s.length s (Nat.le_refl _)

-- Block H: extraction facts

theorem rnA_mem_not_wsp :
    ∀ (s : Text) (b : Bool) (c : Char), c ∈ s → wsp c = false → c ∈ rnA b s := by
  intro s
  induction s with
  | nil => intro b c hc _; exact absurd hc (List.not_mem_nil c)
  | cons d rest ih =>
    intro b c hc hw
    have hcd : c = d → (wsp d = false) := fun h => h ▸ hw
    by_cases hskip : b = true ∧ d = ' '
    · have hne : c ≠ d := by
        intro h
        have := hcd h
        rw [hskip.2] at this
        simp [wsp] at this
      have hc' : c ∈ rest := by
        rcases List.mem_cons.mp hc with rfl | h
        · exact absurd rfl hne
        · exact h
      simp only [rnA, if_pos hskip]
      exact ih true c hc' hw
    · by_cases hnl : d = '\n' ∧ rest.head? = some ' '
      · have hne : c ≠ d := by
          intro h
          have := hcd h
          rw [hnl.1] at this
          simp [wsp] at this
        have hc' : c ∈ rest := by
          rcases List.mem_cons.mp hc with rfl | h
          · exact absurd rfl hne
          · exact h
        simp only [rnA, if_neg hskip, if_pos hnl]
        exact List.mem_cons_of_mem _ (ih true c hc' hw)
      · simp only [rnA, if_neg hskip, if_neg hnl]
        rcases List.mem_cons.mp hc with rfl | h
        · exact List.mem_cons_self _ _
        · exact List.mem_cons_of_mem _ (ih false c h hw)

theorem readTags_mem {htmlTags : List Text} {content : List PTag}
    {t : Text} {p : PTag} (h : (t, p) ∈ readTags htmlTags content) :
    p ∈ content ∧ elig htmlTags p ∧ t = replaceNewlines (pyStrip p.text) := by
  unfold readTags at h
  rcases List.mem_filterMap.mp h with ⟨q, hq, heq⟩
  by_cases he : elig htmlTags q
  · rw [if_pos he] at heq
    obtain ⟨rfl, rfl⟩ := Prod.mk.inj (Option.some.inj heq)
    exact ⟨hq, he, rfl⟩
  · rw [if_neg he] at heq
    cases heq

theorem extracted_strip_ne_nil {t x : Text}
    (ht : t = replaceNewlines (pyStrip x)) (hne : t ≠ []) :
    pyStrip t ≠ [] := by
  have hx : pyStrip x ≠ [] := by
    intro h
    rw [h] at ht
    exact hne ht
  obtain ⟨c, hc, hw⟩ := pyStrip_exists_not_wsp hx
  have hct : c ∈ t := by
    rw [ht]
    exact rnA_mem_not_wsp _ false c hc hw
  intro h
  have := pyStrip_eq_nil_all_wsp h c hct
  rw [hw] at this
  cases this

-- Block I: rebuild mismatch

theorem buildWalk_mismatch (htmlTags : List Text) (ty : TranslationType) :
    ∀ (content : List PTag) (rows : List Row),
    (∃ pr ∈ (content.filter (fun p => decide (elig htmlTags p))).zip rows,
        pr.1 ≠ pr.2.1) →
    buildWalk htmlTags ty content rows = none := by
  intro content
  induction content with
  | nil =>
    intro rows h
    obtain ⟨pr, hpr, -⟩ := h
    simp at hpr
  | cons n rest ih =>
    intro rows h
    obtain ⟨pr, hpr, hne⟩ := h
    by_cases he : elig htmlTags n
    · have hfil : (n :: rest).filter (fun p => decide (elig htmlTags p))
          = n :: rest.filter (fun p => decide (elig htmlTags p)) := by
        simp [List.filter_cons, he]
      rw [hfil] at hpr
      cases rows with
      | nil => simp at hpr
      | cons r rs =>
        rw [List.zip_cons_cons] at hpr
        rcases List.mem_cons.mp hpr with rfl | hpr'
        · have hner : ¬ n = r.1 := hne
          cases ty with
          | REPLACE => simp [buildWalk, he, hner]
          | INLINE => simp [buildWalk, he, hner]
        · have hrec : buildWalk htmlTags ty rest rs = none :=
            ih rs ⟨pr, hpr', hne⟩
          by_cases hnr : n = r.1
          · subst hnr
            cases ty with
            | REPLACE => simp [buildWalk, he, hrec]
            | INLINE => simp [buildWalk, he, hrec]
          · cases ty with
            | REPLACE => simp [buildWalk, he, hnr]
            | INLINE => simp [buildWalk, he, hnr]
    · have hfil : (n :: rest).filter (fun p => decide (elig htmlTags p))
          = rest.filter (fun p => decide (elig htmlTags p)) := by
        simp [List.filter_cons, he]
      rw [hfil] at hpr
      have hrec : buildWalk htmlTags ty rest rows = none :=
        ih rows ⟨pr, hpr, hne⟩
      cases rows with
      | nil => simp at hpr
      | cons r rs => simp [buildWalk, he, hrec]

-- Block J: orchestrator-level facts

theorem translateTexts_blank (ε : Type) (L : Nat)
    (tc : List Text → List Text × List (Err ε))
    (cache0 : Cache) (texts : List Text) (t : Text)
    (ht : t ∈ texts) (hb : pyStrip t = []) :
    (t, some []) ∈ (translateTexts ε L tc cache0 texts).mapping ∧
    (∀ c ∈ (translateTexts ε L tc cache0 texts).sent, t ∉ c) ∧
    cacheGet (translateTexts ε L tc cache0 texts).finalCache t = some [] := by
  have hget : cacheGet (collectDistinct cache0 [] texts).1 t = some [] :=
    collectDistinct_blank_get texts cache0 [] t (Or.inl ⟨ht, hb⟩)
  simp only [translateTexts]
  by_cases hd : (collectDistinct cache0 [] texts).2 = []
  · rw [if_pos hd]
    refine ⟨?_, ?_, hget⟩
    · exact List.mem_map.mpr ⟨t, ht, by rw [hget]⟩
    · intro c hc
      exact absurd hc (List.not_mem_nil c)
  · rw [if_neg hd]
    have hnbd : ∀ u ∈ (collectDistinct cache0 [] texts).2, pyStrip u ≠ [] := by
      intro u hu
      rcases collectDistinct_mem_distinct texts cache0 [] u hu with h | ⟨-, h⟩
      · exact absurd h (List.not_mem_nil u)
      · exact h
    have hkeys : ∀ kv ∈ unchunkTrans (processChunks tc
        (chunkTexts ε L (collectDistinct cache0 [] texts).2).1).trans,
        kv.1 ≠ t := by
      intro kv hkv
      obtain ⟨k, v⟩ := kv
      obtain ⟨mt, hmt, hk⟩ := unchunkTrans_keys hkv
      obtain ⟨m, tr⟩ := mt
      obtain ⟨p, hp, hm⟩ := processChunks_trans_mem ε tc _ m tr hmt
      have hmm : m ∈ allMetas (chunkTexts ε L
          (collectDistinct cache0 [] texts).2).1 := by
        unfold allMetas
        exact List.mem_flatMap.mpr ⟨p, hp, hm⟩
      rcases chunkTextsAux_allMetas ε L _ 0 _ m hmm with h | ⟨h1, -⟩
      · simp [stMetas] at h
      · intro hkt
        have hk2 : m.2.2 = t := hk.symm.trans hkt
        exact hnbd m.2.2 h1 (by rw [hk2]; exact hb)
    have hget2 : cacheGet (if unchunkTrans (processChunks tc
        (chunkTexts ε L (collectDistinct cache0 [] texts).2).1).trans = []
        then (collectDistinct cache0 [] texts).1
        else cacheUpdate (collectDistinct cache0 [] texts).1
          (unchunkTrans (processChunks tc
            (chunkTexts ε L (collectDistinct cache0 [] texts).2).1).trans))
        t = some [] := by
      by_cases hr : unchunkTrans (processChunks tc
          (chunkTexts ε L (collectDistinct cache0 [] texts).2).1).trans = []
      · rw [if_pos hr]; exact hget
      · rw [if_neg hr]
        rw [cacheGet_update_not_mem _ _ t hkeys]
        exact hget
    refine ⟨List.mem_map.mpr ⟨t, ht, by rw [hget2]⟩, ?_, hget2⟩
    intro c hc hmem
    rw [processChunks_sent] at hc
    rcases List.mem_map.mp hc with ⟨p, hp, rfl⟩
    have hcc : t ∈ allConts (chunkTexts ε L
        (collectDistinct cache0 [] texts).2).1 := by
      unfold allConts
      exact List.mem_flatMap.mpr ⟨p, hp, hmem⟩
    rcases chunkTextsAux_allConts ε L _ 0 _ t hnbd hcc with h | ⟨u, hu, hne⟩
    · simp [stConts] at h
    · obtain ⟨c', hc', hw⟩ := pyStrip_exists_not_wsp (hu ▸ hne)
      rw [← hu] at hc'
      have := pyStrip_eq_nil_all_wsp hb c' hc'
      rw [hw] at this
      cases this

theorem translateTexts_invalid_mem (ε : Type) (L : Nat)
    (tc : List Text → List Text × List (Err ε))
    (texts : List Text) (t : Text)
    (ht : t ∈ texts) (hnb : pyStrip t ≠ []) (htl : tooLong L t) :
    Err.invalidText t ∈ (translateTexts ε L tc [] texts).errors := by
  have hpres : t ∈ (collectDistinct [] [] texts).2 := by
    refine collectDistinct_present texts [] [] t ht hnb ?_
    intro k hk
    simp [cacheHasKey, cacheGet] at hk
  have hd : (collectDistinct [] [] texts).2 ≠ [] :=
    fun h => absurd (h ▸ hpres) (List.not_mem_nil t)
  simp only [translateTexts]
  rw [if_neg hd]
  refine List.mem_append.mpr (Or.inl ?_)
  unfold chunkTexts
  rw [chunkTextsAux_errors]
  refine List.mem_map.mpr ⟨t, ?_, rfl⟩
  exact List.mem_filter.mpr ⟨hpres, decide_eq_true htl⟩

theorem chunkTextsAux_allInvalid (ε : Type) (L : Nat) :
    ∀ (ts : List Text) (tid : Nat) (st : CState),
    (∀ t ∈ ts, tooLong L t) →
    (chunkTextsAux ε L ts tid st).1
      = st.closed ++ [(st.curMeta, st.curChunk)] := by
  intro ts
  induction ts with
  | nil => intro tid st _; rfl
  | cons t rest ih =>
    intro tid st hall
    have htl := hall t (List.mem_cons_self _ _)
    simp only [chunkTextsAux]
    rw [if_neg htl.1, if_pos htl.2]
    exact ih _ _ (fun u hu => hall u (List.mem_cons_of_mem _ hu))

theorem collectDistinct_cache_const :
    ∀ (ts : List Text) (cache : Cache) (acc : List Text),
    (∀ t ∈ ts, pyStrip t ≠ []) →
    (collectDistinct cache acc ts).1 = cache := by
  intro ts
  induction ts with
  | nil => intro cache acc _; rfl
  | cons t rest ih =>
    intro cache acc hall
    have hnb := hall t (List.mem_cons_self _ _)
    have hrest : ∀ u ∈ rest, pyStrip u ≠ [] :=
      fun u hu => hall u (List.mem_cons_of_mem _ hu)
    simp only [collectDistinct, if_neg hnb]
    by_cases hc : cacheHasKey cache t
    · rw [if_pos hc]; exact ih _ _ hrest
    · rw [if_neg hc]
      by_cases ha : t ∈ acc
      · rw [if_pos ha]; exact ih _ _ hrest
      · rw [if_neg ha]; exact ih _ _ hrest

theorem filter_eq_nil_of_not_mem {t : Text} :
    ∀ {l : List Text}, t ∉ l →
    l.filter (fun u => decide (u = t)) = [] := by
  intro l
  induction l with
  | nil => intro _; rfl
  | cons a rest ih =>
    intro hnm
    have hna : ¬ a = t := fun h => hnm (h ▸ List.mem_cons_self a rest)
    have hrest : t ∉ rest := fun h => hnm (List.mem_cons_of_mem _ h)
    simp only [List.filter_cons, decide_eq_false hna]
    exact ih hrest

theorem filter_eq_length_one_of_nodup {t : Text} :
    ∀ {l : List Text}, l.Nodup → t ∈ l →
    (l.filter (fun u => decide (u = t))).length = 1 := by
  intro l
  induction l with
  | nil => intro _ h; exact absurd h (List.not_mem_nil t)
  | cons a rest ih =>
    intro hnd hm
    have hnr : a ∉ rest := (List.nodup_cons.mp hnd).1
    by_cases ha : a = t
    · subst ha
      have hfil : rest.filter (fun u => decide (u = a)) = [] :=
        filter_eq_nil_of_not_mem hnr
      simp [List.filter_cons, hfil]
    · have hm' : t ∈ rest := by
        rcases List.mem_cons.mp hm with h | h
        · exact absurd h.symm ha
        · exact h
      simp [List.filter_cons, ha, ih (List.nodup_cons.mp hnd).2 hm']

theorem filter_invalid_map {ε : Type} [DecidableEq ε] (t : Text) :
    ∀ (l : List Text),
    ((l.map Err.invalidText).filter
        (fun e => decide (e = (Err.invalidText t : Err ε)))).length
      = (l.filter (fun u => decide (u = t))).length := by
  intro l
  induction l with
  | nil => rfl
  | cons a rest ih =>
    by_cases ha : a = t
    · subst ha
      simp [List.filter_cons, ih]
    · have h1 : ¬ (Err.invalidText a : Err ε) = Err.invalidText t :=
        fun h => ha (Err.invalidText.inj h)
      simp [List.filter_cons, h1, ha, ih]

theorem filter_filter_tooLong {L : Nat} {t : Text} (htl : tooLong L t) :
    ∀ (l : List Text),
    ((l.filter (fun u => decide (tooLong L u))).filter
        (fun u => decide (u = t))).length
      = (l.filter (fun u => decide (u = t))).length := by
  intro l
  induction l with
  | nil => rfl
  | cons a rest ih =>
    by_cases htla : tooLong L a
    · have h1 : List.filter (fun u => decide (tooLong L u)) (a :: rest)
          = a :: List.filter (fun u => decide (tooLong L u)) rest := by
        simp [List.filter_cons, htla]
      rw [h1]
      by_cases ha : a = t
      · have h2 : List.filter (fun u => decide (u = t))
            (a :: List.filter (fun u => decide (tooLong L u)) rest)
            = a :: List.filter (fun u => decide (u = t))
              (List.filter (fun u => decide (tooLong L u)) rest) := by
          simp [List.filter_cons, ha]
        have h3 : List.filter (fun u => decide (u = t)) (a :: rest)
            = a :: List.filter (fun u => decide (u = t)) rest := by
          simp [List.filter_cons, ha]
        rw [h2, h3, List.length_cons, List.length_cons, ih]
      · have h2 : List.filter (fun u => decide (u = t))
            (a :: List.filter (fun u => decide (tooLong L u)) rest)
            = List.filter (fun u => decide (u = t))
              (List.filter (fun u => decide (tooLong L u)) rest) := by
          simp [List.filter_cons, ha]
        have h3 : List.filter (fun u => decide (u = t)) (a :: rest)
            = List.filter (fun u => decide (u = t)) rest := by
          simp [List.filter_cons, ha]
        rw [h2, h3, ih]
    · have ha : ¬ a = t := fun h => htla (h ▸ htl)
      have h1 : List.filter (fun u => decide (tooLong L u)) (a :: rest)
          = List.filter (fun u => decide (tooLong L u)) rest := by
        simp [List.filter_cons, htla]
      have h3 : List.filter (fun u => decide (u = t)) (a :: rest)
          = List.filter (fun u => decide (u = t)) rest := by
        simp [List.filter_cons, ha]
      rw [h1, h3, ih]

end Lemmas

section Claims

/-- Claim C1: for every configured chunk-size limit `L` and every input
list of texts, every chunk emitted by `_chunk_texts` has a total UTF-8
encoded byte size of at most `L`, and a text rejected with an
`InvalidText` error never appears in any chunk, neither as fragment
metadata nor as fragment content. -/
theorem claim_C1 (ε : Type) (L : Nat) (texts : List Text) :
    (∀ p ∈ (chunkTexts ε L texts).1, chunkLen p.2 ≤ L) ∧
    (∀ t, Err.invalidText t ∈ (chunkTexts ε L texts).2 →
      ∀ p ∈ (chunkTexts ε L texts).1,
        (∀ m ∈ p.1, m.2.2 ≠ t) ∧ t ∉ p.2) := by
  have hsz : ∀ p ∈ (chunkTexts ε L texts).1, chunkLen p.2 ≤ L := by
    refine chunkTextsAux_sizes ε L texts 0 _ ?_ ?_ ?_
    · exact fun p hp => absurd hp (List.not_mem_nil p)
    · simp [chunkLen]
    · exact Nat.zero_le L
  refine ⟨hsz, ?_⟩
  intro t hterr p hp
  have htl : tooLong L t := by
    unfold chunkTexts at hterr
    rw [chunkTextsAux_errors] at hterr
    rcases List.mem_map.mp hterr with ⟨u, hu, hequ⟩
    have hut : u = t := Err.invalidText.inj hequ
    subst hut
    exact of_decide_eq_true (List.mem_filter.mp hu).2
  constructor
  · intro m hm hmt
    have hmm : m ∈ allMetas (chunkTexts ε L texts).1 :=
      List.mem_flatMap.mpr ⟨p, hp, hm⟩
    rcases chunkTextsAux_allMetas ε L texts 0 _ m hmm with h | ⟨-, hok⟩
    · simp [stMetas] at h
    · rw [hmt] at hok
      exact hok htl
  · intro hmem
    have hlt := tooLong_encodeLen_gt htl
    have hle := Nat.le_trans (pyEncodeLen_mem_le hmem) (hsz p hp)
    omega

/-- Witness for C1 at `L = 2`, texts `["aaa", "b"]`: `"aaa"` is rejected
(its only sentence-split sub-line exceeds the limit) and the theorem's
conclusions hold at this input. -/
theorem claim_C1_witness :
    Err.invalidText (String.toList "aaa")
      ∈ (chunkTexts Nat 2 [String.toList "aaa", String.toList "b"]).2 ∧
    ∀ p ∈ (chunkTexts Nat 2 [String.toList "aaa", String.toList "b"]).1,
      chunkLen p.2 ≤ 2 ∧ (∀ m ∈ p.1, m.2.2 ≠ String.toList "aaa") ∧
        String.toList "aaa" ∉ p.2 :=
  ⟨by decide, fun p hp =>
    ⟨(claim_C1 Nat 2 [String.toList "aaa", String.toList "b"]).1 p hp,
      ((claim_C1 Nat 2 [String.toList "aaa", String.toList "b"]).2
        (String.toList "aaa") (by decide) p hp).1,
      ((claim_C1 Nat 2 [String.toList "aaa", String.toList "b"]).2
        (String.toList "aaa") (by decide) p hp).2⟩⟩

/-- Counterexample to C2 as stated: the rebuild pass sees two eligible
nodes while the extraction-pass record list has only one (a count
disagreement), yet `_build_files` raises nothing (`zip` silently truncates)
and the container is modified: the first paragraph's text is overwritten
and the second is ignored. -/
theorem claim_C2_counterexample :
    buildFile TranslationType.REPLACE
      [(⟨String.toList "p", [], String.toList "One."⟩, String.toList "One.",
        some (String.toList "T1"))]
      [⟨String.toList "p", [], String.toList "One."⟩,
        ⟨String.toList "p", [], String.toList "Two."⟩]
      = some [⟨String.toList "p", [], String.toList "T1"⟩,
          ⟨String.toList "p", [], String.toList "Two."⟩] ∧
    (some [⟨String.toList "p", [], String.toList "T1"⟩,
        ⟨String.toList "p", [], String.toList "Two."⟩] : Option (List PTag))
      ≠ none ∧
    ([⟨String.toList "p", [], String.toList "T1"⟩,
        ⟨String.toList "p", [], String.toList "Two."⟩] : List PTag)
      ≠ [⟨String.toList "p", [], String.toList "One."⟩,
        ⟨String.toList "p", [], String.toList "Two."⟩] := by
  decide

/-- Claim C2 as amended: only a tag-identity disagreement at a position
present in both the rebuild-pass eligible-node sequence and the
extraction-pass record list makes `_build_files` raise (the `assert`), in
which case no rebuilt container is produced; a disagreement in count
alone, with agreement at all shared positions, is not detected — the
shared prefix is modified and the extra elements are silently ignored. -/
theorem claim_C2_amended (ty : TranslationType) (rows : List Row)
    (content : List PTag)
    (h : ∃ pr ∈ (eligTags content).zip rows, pr.1 ≠ pr.2.1) :
    buildFile ty rows content = none := by
  apply buildWalk_mismatch
  simpa [eligTags] using h

/-- Witness for the amended C2: a one-node container whose rebuild-pass
node disagrees with the extraction record's tag. -/
theorem claim_C2_witness :
    (∃ pr ∈ (eligTags [⟨String.toList "p", [], String.toList "One."⟩]).zip
        [(⟨String.toList "p", [], String.toList "Two."⟩, String.toList "Two.",
          some (String.toList "T"))], pr.1 ≠ pr.2.1) ∧
    buildFile TranslationType.REPLACE
      [(⟨String.toList "p", [], String.toList "Two."⟩, String.toList "Two.",
        some (String.toList "T"))]
      [⟨String.toList "p", [], String.toList "One."⟩] = none :=
  ⟨by decide, claim_C2_amended TranslationType.REPLACE _ _ (by decide)⟩

/-- Claim C3: whenever the translation stage produced a non-empty error
list, the whole translate-and-rebuild operation aborts, surfacing exactly
that error list, and no rebuilt container is produced; in particular an
extracted text that is invalid for the configured limit forces an abort
whose surfaced list contains its `InvalidText` error. -/
theorem claim_C3 (ε : Type) (L : Nat)
    (tc : List Text → List Text × List (Err ε))
    (ty : TranslationType) (content : List PTag) :
    ((translateTexts ε L tc []
        ((readTags HTML_TAGS content).map (fun r => r.1))).errors ≠ [] →
      translateEPUB ε L tc ty content
        = EpubResult.aborted (translateTexts ε L tc []
            ((readTags HTML_TAGS content).map (fun r => r.1))).errors) ∧
    (∀ t, (∃ p, (t, p) ∈ readTags HTML_TAGS content) → tooLong L t →
      ∃ es, translateEPUB ε L tc ty content = EpubResult.aborted es ∧
        Err.invalidText t ∈ es) := by
  have habort : (translateTexts ε L tc []
      ((readTags HTML_TAGS content).map (fun r => r.1))).errors ≠ [] →
      translateEPUB ε L tc ty content
        = EpubResult.aborted (translateTexts ε L tc []
            ((readTags HTML_TAGS content).map (fun r => r.1))).errors := by
    intro hne
    simp only [translateEPUB]
    rcases herr : (translateTexts ε L tc []
        ((readTags HTML_TAGS content).map (fun r => r.1))).errors
      with _ | ⟨e, es⟩
    · exact absurd herr hne
    · rw [herr]
  refine ⟨habort, ?_⟩
  intro t hx htl
  obtain ⟨p, hp⟩ := hx
  obtain ⟨-, he, ht⟩ := readTags_mem hp
  have htex : t ∈ (readTags HTML_TAGS content).map (fun r => r.1) :=
    List.mem_map.mpr ⟨(t, p), hp, rfl⟩
  have htne : t ≠ [] := by rw [ht]; exact he.2
  have hnb : pyStrip t ≠ [] := extracted_strip_ne_nil ht htne
  have hmem : Err.invalidText t ∈ (translateTexts ε L tc []
      ((readTags HTML_TAGS content).map (fun r => r.1))).errors :=
    translateTexts_invalid_mem ε L tc _ t htex hnb htl
  refine ⟨(translateTexts ε L tc []
      ((readTags HTML_TAGS content).map (fun r => r.1))).errors, ?_, hmem⟩
  apply habort
  intro hnil
  rw [hnil] at hmem
  exact absurd hmem (List.not_mem_nil _)

/-- Witness for C3: a single oversized paragraph with limit 2 aborts the
whole operation with its `InvalidText` error. -/
theorem claim_C3_witness :
    (∃ p, (String.toList "aaa", p) ∈ readTags HTML_TAGS
      [⟨String.toList "p", [], String.toList "aaa"⟩]) ∧
    tooLong 2 (String.toList "aaa") ∧
    ∃ es, translateEPUB Nat 2 (mockTc Nat) TranslationType.INLINE
        [⟨String.toList "p", [], String.toList "aaa"⟩]
      = EpubResult.aborted es ∧
      Err.invalidText (String.toList "aaa") ∈ es :=
  ⟨⟨⟨String.toList "p", [], String.toList "aaa"⟩, by decide⟩, by decide,
    (claim_C3 Nat 2 (mockTc Nat) TranslationType.INLINE
      [⟨String.toList "p", [], String.toList "aaa"⟩]).2 (String.toList "aaa")
      ⟨⟨String.toList "p", [], String.toList "aaa"⟩, by decide⟩ (by decide)⟩

/-- Counterexample to C4 as stated: `client.translate_text` runs outside
the source's `try`, so when the Translation Client call itself fails on
the first chunk, the exception escapes the loop uncaught — no
`CannotTranslate` error is recorded for any fragment and the second chunk
is never handed to the client (only `[["a"]]` was sent) — instead of the
claimed one-error-per-fragment plus continued processing. -/
theorem claim_C4_counterexample :
    processChunksExc (googleChunk Nat (List Text)
        (fun c => if c = [String.toList "a"] then Except.error 7
          else Except.ok c)
        (fun r => Except.ok r))
      [([(0, 0, String.toList "a")], [String.toList "a"]),
        ([(1, 0, String.toList "b")], [String.toList "b"])]
      = LoopResult.raised 7 [[String.toList "a"]] ∧
    LoopResult.raised 7 [[String.toList "a"]]
      ≠ LoopResult.done
          (⟨[((1, 0, String.toList "b"), String.toList "b")],
            [Err.cannotTranslate (String.toList "a") 7],
            [[String.toList "a"], [String.toList "b"]]⟩ : ProcOut Nat) := by
  decide

/-- Claim C4 as amended: only a failure while reading the response's
translations is caught by `_translate_chunk`: such a chunk produces
exactly one `CannotTranslate` error per fragment — each carrying the
fragment's text and the underlying cause — contributes no translations,
and the remaining chunks are still processed.  A failure of the
Translation Client call itself propagates uncaught out of the loop: no
`CannotTranslate` error is recorded and the chunks after the failing one
are never handed to the client. -/
theorem claim_C4_amended (ε ρ : Type) (call : List Text → Except ε ρ)
    (readResp : ρ → Except ε (List Text)) (chunks : List ChunkPair) :
    ((∀ p ∈ chunks, ∃ r, call p.2 = Except.ok r) →
      processChunksExc (googleChunk ε ρ call readResp) chunks
        = LoopResult.done
            ⟨chunks.flatMap (fun p => match call p.2 with
                | Except.ok resp => (match readResp resp with
                    | Except.ok ts => p.1.zip ts
                    | Except.error _ => [])
                | Except.error _ => []),
              chunks.flatMap (fun p => match call p.2 with
                | Except.ok resp => (match readResp resp with
                    | Except.ok _ => []
                    | Except.error e =>
                        p.2.map (fun t => Err.cannotTranslate t e))
                | Except.error _ => []),
              chunks.map (fun p => p.2)⟩) ∧
    (∀ (pre : List ChunkPair) (p : ChunkPair) (post : List ChunkPair)
        (e : ε),
      chunks = pre ++ p :: post →
      (∀ q ∈ pre, ∃ r, call q.2 = Except.ok r) →
      call p.2 = Except.error e →
      processChunksExc (googleChunk ε ρ call readResp) chunks
        = LoopResult.raised e (pre.map (fun q => q.2) ++ [p.2])) := by
  constructor
  · exact processChunksExc_allOk ε ρ call readResp chunks
  · intro pre p post e hsplit hpre hfail
    rw [hsplit]
    exact processChunksExc_raise ε ρ call readResp pre p post e hpre hfail

/-- Witness for the amended C4: the call fails only on chunk `["b"]` and
response reading fails only on the response for `["c"]`; a chunk list
avoiding `["b"]` is fully processed with one `CannotTranslate` per
fragment of `["c"]`, while a chunk list containing `["b"]` raises after
sending only the chunks up to and including `["b"]`. -/
theorem claim_C4_witness :
    (∀ p ∈ [([(0, 0, String.toList "a")], [String.toList "a"]),
        ([(1, 0, String.toList "c")], [String.toList "c"])],
      ∃ r, (fun c => if c = [String.toList "b"] then Except.error 7
        else Except.ok c) p.2 = Except.ok r) ∧
    processChunksExc (googleChunk Nat (List Text)
        (fun c => if c = [String.toList "b"] then Except.error 7
          else Except.ok c)
        (fun r => if r = [String.toList "c"] then Except.error 5
          else Except.ok r))
      [([(0, 0, String.toList "a")], [String.toList "a"]),
        ([(1, 0, String.toList "c")], [String.toList "c"])]
      = LoopResult.done
          ⟨[((0, 0, String.toList "a"), String.toList "a")],
            [Err.cannotTranslate (String.toList "c") 5],
            [[String.toList "a"], [String.toList "c"]]⟩ ∧
    (fun c => if c = [String.toList "b"] then Except.error 7
      else Except.ok c) [String.toList "b"]
      = (Except.error 7 : Except Nat (List Text)) ∧
    processChunksExc (googleChunk Nat (List Text)
        (fun c => if c = [String.toList "b"] then Except.error 7
          else Except.ok c)
        (fun r => if r = [String.toList "c"] then Except.error 5
          else Except.ok r))
      [([(0, 0, String.toList "a")], [String.toList "a"]),
        ([(1, 0, String.toList "b")], [String.toList "b"]),
        ([(2, 0, String.toList "d")], [String.toList "d"])]
      = LoopResult.raised 7 [[String.toList "a"], [String.toList "b"]] := by
  have hok2 : ∀ p ∈ [([(0, 0, String.toList "a")], [String.toList "a"]),
      ([(1, 0, String.toList "c")], [String.toList "c"])],
      ∃ r, (fun c => if c = [String.toList "b"] then Except.error 7
        else Except.ok c) p.2 = Except.ok r := by
    intro p hp
    rcases List.mem_cons.mp hp with rfl | hp'
    · exact ⟨[String.toList "a"], rfl⟩
    rcases List.mem_cons.mp hp' with rfl | hp''
    · exact ⟨[String.toList "c"], rfl⟩
    · exact absurd hp'' (List.not_mem_nil _)
  have hok1 : ∀ q ∈ [([(0, 0, String.toList "a")], [String.toList "a"])],
      ∃ r, (fun c => if c = [String.toList "b"] then Except.error 7
        else Except.ok c) q.2 = Except.ok r := by
    intro q hq
    rcases List.mem_cons.mp hq with rfl | hq'
    · exact ⟨[String.toList "a"], rfl⟩
    · exact absurd hq' (List.not_mem_nil _)
  refine ⟨hok2, ?_, rfl, ?_⟩
  · exact ((claim_C4_amended Nat (List Text)
      (fun c => if c = [String.toList "b"] then Except.error 7
        else Except.ok c)
      (fun r => if r = [String.toList "c"] then Except.error 5
        else Except.ok r)
      [([(0, 0, String.toList "a")], [String.toList "a"]),
        ([(1, 0, String.toList "c")], [String.toList "c"])]).1
      hok2).trans (by decide)
  · exact ((claim_C4_amended Nat (List Text)
      (fun c => if c = [String.toList "b"] then Except.error 7
        else Except.ok c)
      (fun r => if r = [String.toList "c"] then Except.error 5
        else Except.ok r)
      [([(0, 0, String.toList "a")], [String.toList "a"]),
        ([(1, 0, String.toList "b")], [String.toList "b"]),
        ([(2, 0, String.toList "d")], [String.toList "d"])]).2
      [([(0, 0, String.toList "a")], [String.toList "a"])]
      ([(1, 0, String.toList "b")], [String.toList "b"])
      [([(2, 0, String.toList "d")], [String.toList "d"])] 7
      rfl hok1 rfl).trans (by decide)

/-- Counterexample to C5 as stated: with the identity client,
`translate_texts(["a ", "b"])` maps `"a "` to `"a"` — the stripped
fragment, not the original text — and with chunk size 4 the oversized
text `"A. B."` is sentence-split and rejoined with spaces, mapping to
`"A B"`; in neither case is the returned mapping `{T1: T1, T2: T2}`. -/
theorem claim_C5_counterexample :
    (mapGet (translateTexts Nat 10 (idTc Nat) []
        [String.toList "a ", String.toList "b"]).mapping
      (String.toList "a ") = some (String.toList "a") ∧
    some (String.toList "a") ≠ some (String.toList "a ")) ∧
    (mapGet (translateTexts Nat 4 (idTc Nat) []
        [String.toList "A. B.", String.toList "b"]).mapping
      (String.toList "A. B.") = some (String.toList "A B") ∧
    some (String.toList "A B") ≠ some (String.toList "A. B.")) := by
  decide

/-- Claim C5 as amended: for texts that are already stripped, non-empty,
distinct and individually below the chunk-size limit, the identity client
yields the mapping `{T1: T1, T2: T2}` and an empty error list (starting
from an empty cache). -/
theorem claim_C5_amended (ε : Type) (L : Nat) (T1 T2 : Text)
    (h1 : pyStrip T1 = T1) (h2 : pyStrip T2 = T2)
    (hn1 : T1 ≠ []) (hn2 : T2 ≠ []) (hne : T1 ≠ T2)
    (hs1 : pyEncodeLen T1 < L) (hs2 : pyEncodeLen T2 < L) :
    (translateTexts ε L (idTc ε) [] [T1, T2]).mapping
        = [(T1, some T1), (T2, some T2)] ∧
    (translateTexts ε L (idTc ε) [] [T1, T2]).errors = [] := by
  have hb1 : ¬ pyStrip T1 = [] := by rw [h1]; exact hn1
  have hb2 : ¬ pyStrip T2 = [] := by rw [h2]; exact hn2
  have hne21 : ¬ T2 = T1 := fun h => hne h.symm
  have hno1 : ¬ L < pyEncodeLen T1 := Nat.lt_asymm hs1
  have hcd : collectDistinct [] [] [T1, T2] = ([], [T1, T2]) := by
    simp [collectDistinct, hb1, hb2, cacheHasKey, cacheGet, hne21]
  have huch : unchunkTrans [((0, 0, T1), T1), ((1, 0, T2), T2)]
      = [(T1, T1), (T2, T2)] := by
    simp [unchunkTrans, pySorted, pyInsert, ltTransPair, ltLineTran,
      groupAdd, joinSpace]
  have hget : ∀ v1 v2 : Text,
      (cacheUpdate [] [(T1, v1), (T2, v2)]) = [(T2, v2), (T1, v1)] := by
    intro v1 v2
    simp [cacheUpdate, cacheSet]
  by_cases hsum : L < pyEncodeLen T1 + pyEncodeLen T2
  · have hchunk : chunkTexts ε L [T1, T2]
        = ([([(0, 0, T1)], [T1]), ([(1, 0, T2)], [T2])], []) := by
      simp [chunkTexts, chunkTextsAux, hs1, hs2, hno1, h1, h2, hsum]
    have hpc : processChunks (idTc ε)
        [([(0, 0, T1)], [T1]), ([(1, 0, T2)], [T2])]
        = ⟨[((0, 0, T1), T1), ((1, 0, T2), T2)], [], [[T1], [T2]]⟩ := by
      simp [processChunks, idTc]
    simp only [translateTexts, hcd]
    rw [if_neg (by simp : ¬ (([], [T1, T2]) : Cache × List Text).2 = [])]
    simp only [hchunk, hpc, huch]
    rw [if_neg (by simp : ¬ ([(T1, T1), (T2, T2)] : List (Text × Text)) = [])]
    rw [hget]
    constructor
    · simp [cacheGet, hne21]
    · rfl
  · have hchunk : chunkTexts ε L [T1, T2]
        = ([([(0, 0, T1), (1, 0, T2)], [T1, T2])], []) := by
      simp [chunkTexts, chunkTextsAux, hs1, hs2, hno1, h1, h2, hsum]
    have hpc : processChunks (idTc ε) [([(0, 0, T1), (1, 0, T2)], [T1, T2])]
        = ⟨[((0, 0, T1), T1), ((1, 0, T2), T2)], [], [[T1, T2]]⟩ := by
      simp [processChunks, idTc]
    simp only [translateTexts, hcd]
    rw [if_neg (by simp : ¬ (([], [T1, T2]) : Cache × List Text).2 = [])]
    simp only [hchunk, hpc, huch]
    rw [if_neg (by simp : ¬ ([(T1, T1), (T2, T2)] : List (Text × Text)) = [])]
    rw [hget]
    constructor
    · simp [cacheGet, hne21]
    · rfl

/-- Witness for the amended C5 at `T1 = "x"`, `T2 = "y"`, `L = 10`. -/
theorem claim_C5_witness :
    pyStrip (String.toList "x") = String.toList "x" ∧
    pyStrip (String.toList "y") = String.toList "y" ∧
    pyEncodeLen (String.toList "x") < 10 ∧
    (translateTexts Nat 10 (idTc Nat) []
        [String.toList "x", String.toList "y"]).mapping
      = [(String.toList "x", some (String.toList "x")),
          (String.toList "y", some (String.toList "y"))] ∧
    (translateTexts Nat 10 (idTc Nat) []
        [String.toList "x", String.toList "y"]).errors = [] :=
  ⟨by decide, by decide, by decide,
    (claim_C5_amended Nat 10 (String.toList "x") (String.toList "y")
      (by decide) (by decide) (by decide) (by decide) (by decide)
      (by decide) (by decide)).1,
    (claim_C5_amended Nat 10 (String.toList "x") (String.toList "y")
      (by decide) (by decide) (by decide) (by decide) (by decide)
      (by decide) (by decide)).2⟩

/-- Counterexample to C6 as stated: with chunk size 2000 both paragraphs
are chunked whole (sentence-splitting only applies to oversized texts), so
Inline mode inserts siblings containing `"MOCKED: Hello world."` and
`"MOCKED: Hi."` — not the claimed `"MOCKED: Hello world ."` and
`"MOCKED: Hi ."`. -/
theorem claim_C6_counterexample :
    translateEPUB Nat 2000 (mockTc Nat) TranslationType.INLINE
      [⟨String.toList "p", [], String.toList "Hello world."⟩,
        ⟨String.toList "p", [], String.toList "Hi."⟩]
      = EpubResult.ok
        [⟨String.toList "p", [], String.toList "Hello world."⟩,
          ⟨String.toList "p", [], String.toList "MOCKED: Hello world."⟩,
          ⟨String.toList "p", [], String.toList "Hi."⟩,
          ⟨String.toList "p", [], String.toList "MOCKED: Hi."⟩] ∧
    (EpubResult.ok
        [⟨String.toList "p", [], String.toList "Hello world."⟩,
          ⟨String.toList "p", [], String.toList "MOCKED: Hello world."⟩,
          ⟨String.toList "p", [], String.toList "Hi."⟩,
          ⟨String.toList "p", [], String.toList "MOCKED: Hi."⟩]
      : EpubResult Nat)
      ≠ EpubResult.ok
        [⟨String.toList "p", [], String.toList "Hello world."⟩,
          ⟨String.toList "p", [], String.toList "MOCKED: Hello world ."⟩,
          ⟨String.toList "p", [], String.toList "Hi."⟩,
          ⟨String.toList "p", [], String.toList "MOCKED: Hi ."⟩] := by
  decide

/-- Claim C6 as amended: for the two-paragraph document with a chunk size
large enough for both, the mock translator yields `"MOCKED: Hello world."`
and `"MOCKED: Hi."` (the texts are sent whole, so no sentence-splitting or
rejoin spacing occurs); Inline mode inserts each as a new sibling
paragraph after the original, Replace mode overwrites the original
paragraphs' text with the same strings. -/
theorem claim_C6_amended :
    translateEPUB Nat 2000 (mockTc Nat) TranslationType.INLINE
      [⟨String.toList "p", [], String.toList "Hello world."⟩,
        ⟨String.toList "p", [], String.toList "Hi."⟩]
      = EpubResult.ok
        [⟨String.toList "p", [], String.toList "Hello world."⟩,
          ⟨String.toList "p", [], String.toList "MOCKED: Hello world."⟩,
          ⟨String.toList "p", [], String.toList "Hi."⟩,
          ⟨String.toList "p", [], String.toList "MOCKED: Hi."⟩] ∧
    translateEPUB Nat 2000 (mockTc Nat) TranslationType.REPLACE
      [⟨String.toList "p", [], String.toList "Hello world."⟩,
        ⟨String.toList "p", [], String.toList "Hi."⟩]
      = EpubResult.ok
        [⟨String.toList "p", [], String.toList "MOCKED: Hello world."⟩,
          ⟨String.toList "p", [], String.toList "MOCKED: Hi."⟩] := by
  decide

/-- Claim C7: an oversized text with an unsplittable sub-line produces
exactly one `InvalidText` error for the whole original text, none of its
fragments are placed into any chunk, and every other text that fits below
the limit is still chunked. -/
theorem claim_C7 (ε : Type) [DecidableEq ε] (L : Nat) (texts : List Text)
    (t : Text) (hnd : texts.Nodup) (ht : t ∈ texts) (htl : tooLong L t) :
    ((chunkTexts ε L texts).2.filter
        (fun e => decide (e = Err.invalidText t))).length = 1 ∧
    (∀ p ∈ (chunkTexts ε L texts).1, ∀ m ∈ p.1, m.2.2 ≠ t) ∧
    (∀ u ∈ texts, pyEncodeLen u < L →
      ∃ tid, ∃ p ∈ (chunkTexts ε L texts).1, (tid, 0, u) ∈ p.1) := by
  refine ⟨?_, ?_, ?_⟩
  · unfold chunkTexts
    rw [chunkTextsAux_errors]
    rw [filter_invalid_map t]
    rw [filter_filter_tooLong htl]
    exact filter_eq_length_one_of_nodup hnd ht
  · intro p hp m hm hmt
    have hmm : m ∈ allMetas (chunkTexts ε L texts).1 :=
      List.mem_flatMap.mpr ⟨p, hp, hm⟩
    rcases chunkTextsAux_allMetas ε L texts 0 _ m hmm with h | ⟨-, hok⟩
    · simp [stMetas] at h
    · rw [hmt] at hok
      exact hok htl
  · intro u hu hlt
    obtain ⟨tid, htid⟩ := chunkTextsAux_present ε L texts 0 _ u hu hlt
    obtain ⟨p, hp, hmp⟩ := List.mem_flatMap.mp htid
    exact ⟨tid, p, hp, hmp⟩

/-- Witness for C7 at `L = 2`, texts `["aaa", "b"]`, `t = "aaa"`. -/
theorem claim_C7_witness :
    [String.toList "aaa", String.toList "b"].Nodup ∧
    tooLong 2 (String.toList "aaa") ∧
    (((chunkTexts Nat 2 [String.toList "aaa", String.toList "b"]).2.filter
        (fun e => decide (e = Err.invalidText (String.toList "aaa")))).length
        = 1 ∧
      (∀ p ∈ (chunkTexts Nat 2 [String.toList "aaa", String.toList "b"]).1,
        ∀ m ∈ p.1, m.2.2 ≠ String.toList "aaa") ∧
      (∀ u ∈ [String.toList "aaa", String.toList "b"], pyEncodeLen u < 2 →
        ∃ tid, ∃ p ∈ (chunkTexts Nat 2
          [String.toList "aaa", String.toList "b"]).1, (tid, 0, u) ∈ p.1)) :=
  ⟨by decide, by decide,
    claim_C7 Nat 2 [String.toList "aaa", String.toList "b"]
      (String.toList "aaa") (by decide) (by decide) (by decide)⟩

/-- Counterexample to C8 as stated: the blank text's handling is not
"without cache involvement" — `cache[text] = ''` writes the blank entry
into the cache dict, the returned value is read back from the cache, and
the entry sits in the final cache that `_save_cache` persists once the
session added new entries: with texts `[" ", "x"]` the final cache is
`{"x": "MOCKED: x", " ": ""}`, containing the blank entry. -/
theorem claim_C8_counterexample :
    (translateTexts Nat 10 (mockTc Nat) []
        [String.toList " ", String.toList "x"]).finalCache
      = [(String.toList "x", String.toList "MOCKED: x"),
          (String.toList " ", [])] ∧
    (String.toList " ", ([] : Text))
      ∈ (translateTexts Nat 10 (mockTc Nat) []
        [String.toList " ", String.toList "x"]).finalCache := by
  decide

/-- Claim C8 as amended: an input text that is empty or whitespace-only
after trimming is mapped to the empty translation and is never part of
any chunk handed to the Translation Client (zero client invocations on
it), for any client, initial cache and accompanying texts; the cache,
however, is involved: the empty translation is written into the cache
under the blank text — the final session cache maps it to `""` and is
what gets persisted — and the returned value is read back from it. -/
theorem claim_C8_amended (ε : Type) (L : Nat)
    (tc : List Text → List Text × List (Err ε))
    (cache0 : Cache) (texts : List Text) (t : Text)
    (ht : t ∈ texts) (hb : pyStrip t = []) :
    (t, some []) ∈ (translateTexts ε L tc cache0 texts).mapping ∧
    (∀ c ∈ (translateTexts ε L tc cache0 texts).sent, t ∉ c) ∧
    cacheGet (translateTexts ε L tc cache0 texts).finalCache t = some [] :=
  translateTexts_blank ε L tc cache0 texts t ht hb

/-- Witness for the amended C8 at texts `[" ", "x"]`, `t = " "`. -/
theorem claim_C8_witness :
    String.toList " " ∈ [String.toList " ", String.toList "x"] ∧
    pyStrip (String.toList " ") = [] ∧
    ((String.toList " ", some ([] : Text))
        ∈ (translateTexts Nat 10 (mockTc Nat) []
          [String.toList " ", String.toList "x"]).mapping ∧
      (∀ c ∈ (translateTexts Nat 10 (mockTc Nat) []
          [String.toList " ", String.toList "x"]).sent,
        String.toList " " ∉ c) ∧
      cacheGet (translateTexts Nat 10 (mockTc Nat) []
          [String.toList " ", String.toList "x"]).finalCache
        (String.toList " ") = some []) :=
  ⟨by decide, by decide,
    claim_C8_amended Nat 10 (mockTc Nat) []
      [String.toList " ", String.toList "x"]
      (String.toList " ") (by decide) (by decide)⟩

/-- Counterexample to C9 as stated: the extraction normalization is the
substitution of the pattern newline-followed-by-spaces only, so the node
text `"a  b"` (a run of two spaces, no newline) and the node text
`"a\nb"` (a bare newline, no following space) are both extracted
unchanged, while collapsing runs of whitespace into single spaces would
give `"a b"` in both cases. -/
theorem claim_C9_counterexample :
    (readTags HTML_TAGS [⟨String.toList "p", [], String.toList "a  b"⟩]
      = [(String.toList "a  b",
          ⟨String.toList "p", [], String.toList "a  b"⟩)] ∧
    specNormalizeC9 (String.toList "a  b") = String.toList "a b" ∧
    String.toList "a  b" ≠ String.toList "a b") ∧
    (readTags HTML_TAGS [⟨String.toList "p", [], String.toList "a\nb"⟩]
      = [(String.toList "a\nb",
          ⟨String.toList "p", [], String.toList "a\nb"⟩)] ∧
    specNormalizeC9 (String.toList "a\nb") = String.toList "a b" ∧
    String.toList "a\nb" ≠ String.toList "a b") := by
  decide

/-- Claim C9 as amended: for every node matching the tag allow-list, the
extraction pass produces the node's text trimmed of leading and trailing
whitespace, with every newline that is immediately followed by one or more
spaces replaced, together with those spaces, by a single space (other
whitespace is preserved); the extracted text is non-empty. -/
theorem claim_C9_amended (htmlTags : List Text) (content : List PTag)
    (t : Text) (p : PTag) (h : (t, p) ∈ readTags htmlTags content) :
    t = specReplace (pyStrip p.text) ∧ t ≠ [] := by
  obtain ⟨-, he, ht⟩ := readTags_mem h
  constructor
  · rw [ht, replaceNewlines_eq_specReplace]
  · rw [ht]
    exact he.2

/-- Witness for the amended C9 at the node text `" a\nb "`. -/
theorem claim_C9_witness :
    ((String.toList "a\nb",
        (⟨String.toList "p", [], String.toList " a\nb "⟩ : PTag))
      ∈ readTags HTML_TAGS
        [⟨String.toList "p", [], String.toList " a\nb "⟩]) ∧
    (String.toList "a\nb"
        = specReplace (pyStrip (String.toList " a\nb ")) ∧
      String.toList "a\nb" ≠ []) :=
  ⟨by decide,
    claim_C9_amended HTML_TAGS
      [⟨String.toList "p", [], String.toList " a\nb "⟩]
      (String.toList "a\nb")
      ⟨String.toList "p", [], String.toList " a\nb "⟩ (by decide)⟩

/-- Counterexample to C10 as stated: when the only input text is rejected
as invalid, the never-populated initial chunk is not pruned — it remains
in the chunker output and `translate_texts` hands it to the Translation
Client: the list of chunks sent to the client is exactly `[[]]`. -/
theorem claim_C10_counterexample :
    (chunkTexts Nat 2 [String.toList "aaa"]).1 = [([], [])] ∧
    (translateTexts Nat 2 (mockTc Nat) [] [String.toList "aaa"]).sent
      = [[]] := by
  decide

/-- Claim C10 as amended: when every input text is non-blank and rejected
as invalid, the initial chunk stays empty and is not pruned:
`translate_texts` invokes the Translation Client exactly once, on the
empty chunk; the call contributes no translations (every requested text
maps to `none`). -/
theorem claim_C10_amended (L : Nat) (texts : List Text)
    (hne : texts ≠ [])
    (hall : ∀ t ∈ texts, pyStrip t ≠ [] ∧ tooLong L t) :
    (translateTexts Nat L (mockTc Nat) [] texts).sent = [[]] ∧
    ∀ pr ∈ (translateTexts Nat L (mockTc Nat) [] texts).mapping,
      pr.2 = none := by
  have hnb : ∀ t ∈ texts, pyStrip t ≠ [] := fun t h => (hall t h).1
  have hcache : (collectDistinct [] [] texts).1 = [] :=
    collectDistinct_cache_const texts [] [] hnb
  obtain ⟨t0, hts⟩ : ∃ t0, t0 ∈ texts := by
    cases texts with
    | nil => exact absurd rfl hne
    | cons a l => exact ⟨a, List.mem_cons_self _ _⟩
  have hd : (collectDistinct [] [] texts).2 ≠ [] := by
    have hpres := collectDistinct_present texts [] [] t0 hts
      ((hall t0 hts).1) (by intro k hk; simp [cacheHasKey, cacheGet] at hk)
    intro hcon
    rw [hcon] at hpres
    exact absurd hpres (List.not_mem_nil t0)
  have hdtl : ∀ u ∈ (collectDistinct [] [] texts).2, tooLong L u := by
    intro u hu
    rcases collectDistinct_mem_distinct texts [] [] u hu with h | ⟨h1, -⟩
    · exact absurd h (List.not_mem_nil u)
    · exact (hall u h1).2
  have hchunks : (chunkTexts Nat L (collectDistinct [] [] texts).2).1
      = [([], [])] := by
    unfold chunkTexts
    rw [chunkTextsAux_allInvalid Nat L _ 0 _ hdtl]
    rfl
  have hpc : processChunks (mockTc Nat) [([], [])]
      = (⟨[], [], [[]]⟩ : ProcOut Nat) := by
    simp [processChunks, mockTc]
  simp only [translateTexts]
  rw [if_neg hd]
  simp only [hchunks, hpc]
  rw [show unchunkTrans [] = [] from rfl]
  rw [if_pos rfl]
  constructor
  · trivial
  · intro pr hpr
    rcases List.mem_map.mp hpr with ⟨u, hu, rfl⟩
    simp [hcache, cacheGet]

/-- Witness for the amended C10 at `L = 2`, texts `["aaa"]`. -/
theorem claim_C10_witness :
    ([String.toList "aaa"] : List Text) ≠ [] ∧
    (∀ t ∈ [String.toList "aaa"], pyStrip t ≠ [] ∧ tooLong 2 t) ∧
    ((translateTexts Nat 2 (mockTc Nat) [] [String.toList "aaa"]).sent
        = [[]] ∧
      ∀ pr ∈ (translateTexts Nat 2 (mockTc Nat) []
          [String.toList "aaa"]).mapping, pr.2 = none) :=
  ⟨by decide, by decide,
    claim_C10_amended 2 [String.toList "aaa"] (by decide) (by decide)⟩

end Claims

end EpubTrans
